import Mathlib

/-
Verification development for the `hierarchicalforecast` reconciliation
orchestrator (`hierarchicalforecast/core.py`).

The Python source is shallowly embedded below:

* pandas `DataFrame`s become `Frame`: an ordered list of row labels
  (the `unique_id` index) together with an ordered list of named columns;
  a cell is `Option ℚ`, with `none` modelling a null/NaN entry, and each
  column carries a `numeric` flag modelling its pandas dtype.
* Python numbers passed as confidence levels become `PyNum`: the numeric
  value (as `ℚ`) together with its `str` rendering, since the code both
  compares levels numerically and interpolates them into column names.
* parameter dictionaries (`fn.__dict__`) become ordered association lists
  `List (String × String)`; values are represented by their canonical
  Python `str` rendering (`str` is injective on the bool/str/float values
  that occur there, so `== 'mint_shrink'`, `== 2e-8` and truthiness tests
  translate to tests on the rendering).
* `scipy.stats.norm.ppf` is an opaque parameter `ppf : ℚ → ℚ`; the
  reconciliation algorithms themselves (external collaborators per the
  spec) are an opaque `Oracle` producing their mean/quantile/sample
  arrays, and wall-clock time is modelled by the dispatch-iteration
  counter (monotone, one tick per (model, algorithm) pair).
* raised exceptions become `Except String` / an error component, carrying
  the exact message the source builds.
-/

namespace HF

/-! ### String helpers (Python `in`, `re.findall` of numbers, `float`) -/

/-- Python substring test `needle in hay`, on the character list of `hay`. -/
def subList (n : List Char) : List Char → Bool
  | [] => n.isEmpty
  | c :: cs => n.isPrefixOf (c :: cs) || subList n cs

/-- Python `needle in hay` for strings. -/
def containsSub (needle hay : String) : Bool :=
  subList needle.data hay.data

/-- Characters the level-parsing regex `[\d]+[.,\d]+|[\d]*[.][\d]+|[\d]+`
accepts inside a numeric token. -/
def isNumChar (c : Char) : Bool := c.isDigit || c = '.' || c = ','

/-- Maximal runs of digit/dot/comma characters that contain at least one
digit.  This models the token list `re.findall` produces on the column
names at hand: in every name whose numeric runs start with a digit (in
particular every `{model}-lo-{level}` / `{model}-hi-{level}` name) the
regex matches exactly these runs. -/
def numRuns : List Char → List (List Char)
  | [] => []
  | c :: cs =>
    let rest := numRuns cs
    if isNumChar c then
      match rest, cs with
      | r :: rs, d :: _ => if isNumChar d then (c :: r) :: rs else [c] :: rest
      | _, _ => [c] :: rest
    else rest

/-- Numeric tokens of a string, in order of appearance. -/
def numTokens (s : String) : List String :=
  ((numRuns s.data).filter (fun r => r.any Char.isDigit)).map List.asString

/-- Value of a list of decimal digits. -/
def digitsVal (l : List Char) : ℕ :=
  l.foldl (fun a c => 10 * a + (c.toNat - 48)) 0

/-- Python `float(s)` on the numeric tokens that occur in interval column
names: plain digit runs and `digits.digits` forms parse to their value,
anything else (for instance a token containing a comma) raises, which is
modelled by `none`. -/
def pyFloat (s : String) : Option ℚ :=
  let cs := s.data
  if cs ≠ [] ∧ cs.all Char.isDigit then some (digitsVal cs)
  else
    match cs.splitOn '.' with
    | [a, b] =>
      if (a.all Char.isDigit) ∧ (b.all Char.isDigit) ∧ (a ≠ [] ∨ b ≠ []) then
        some ((digitsVal a : ℚ) + (digitsVal b : ℚ) / ((10 : ℚ) ^ b.length))
      else none
    | _ => none

/-- The value of the last numeric token of a string:
`float(re.findall(...)[-1])`, with `none` when the regex finds nothing
(`IndexError`) or `float` raises (`ValueError`). -/
def lastNum (s : String) : Option ℚ :=
  match (numTokens s).getLast? with
  | none => none
  | some t => pyFloat t

/-! ### Python numbers carried in the `level` list -/

/-- A Python number as the orchestrator sees it: its numeric value and its
`str` rendering (used when the level is interpolated into column names). -/
structure PyNum where
  val : ℚ
  repr : String
deriving DecidableEq, Repr

/-- Python `list.sort()` on a level list: a stable ascending sort by
numeric value. -/
def pySort (l : List PyNum) : List PyNum :=
  l.insertionSort (fun a b => a.val ≤ b.val)

/-! ### Frames (pandas DataFrames) -/

/-- One column of a frame: its pandas dtype (`numeric`) and its cells,
`none` modelling a null/NaN entry. -/
structure ColData where
  numeric : Bool
  vals : List (Option ℚ)
deriving DecidableEq, Repr

/-- A pandas DataFrame: the `unique_id` index (one label per row) and the
ordered, named, non-index columns. -/
structure Frame where
  index : List String
  cols : List (String × ColData)
deriving DecidableEq, Repr

/-- Column names of a frame, in order. -/
def Frame.colNames (f : Frame) : List String := f.cols.map Prod.fst

/-- Column lookup by name (first match, as pandas label lookup). -/
def Frame.get? (f : Frame) (name : String) : Option ColData :=
  (f.cols.find? (fun p => p.1 == name)).map Prod.snd

/-- Values of a column as plain rationals (nulls read as 0; the callers
below only use this on columns already validated non-null). -/
def Frame.colValsQ (f : Frame) (name : String) : List ℚ :=
  (((f.get? name).map ColData.vals).getD []).map (fun v => v.getD 0)

/-- Column assignment `df[name] = vals`: overwrite in place when the name
exists, append a new numeric column at the end otherwise. -/
def frameSetCol (f : Frame) (name : String) (vals : List (Option ℚ)) : Frame :=
  if f.cols.any (fun p => p.1 == name) then
    { f with cols := f.cols.map (fun p => if p.1 == name then (p.1, ⟨true, vals⟩) else p) }
  else
    { f with cols := f.cols ++ [(name, ⟨true, vals⟩)] }

/-- `pd.concat([f, extra], axis=1)`: append columns at the end (duplicate
names are kept, as pandas does). -/
def frameAppendCols (f : Frame) (extra : List (String × ColData)) : Frame :=
  { f with cols := f.cols ++ extra }

/-- Positional column rename `df.columns = names` (pandas raises on a
length mismatch). -/
def frameRename (names : List String) (f : Frame) : Except String Frame :=
  if names.length = f.cols.length then
    .ok { f with cols := names.zip (f.cols.map Prod.snd) }
  else
    .error "Length mismatch: columns"

/-- Row-wise `pd.concat(frames, axis=0)` of frames sharing one column
layout (the only shape this code produces; general name alignment is not
modelled). -/
def vconcat : List Frame → Except String Frame
  | [] => .error "No objects to concatenate"
  | f :: fs =>
    fs.foldl
      (fun acc g =>
        match acc with
        | .error e => .error e
        | .ok h =>
          if h.colNames = g.colNames then
            .ok { index := h.index ++ g.index,
                  cols := h.cols.zipWith (fun p q => (p.1, ⟨p.2.numeric && q.2.numeric,
                          p.2.vals ++ q.2.vals⟩)) g.cols }
          else .error "cannot concatenate frames with differing columns")
      (.ok f)

/-! ### `_build_fn_name` (§4.2 Reconciler Name Resolver) -/

/-- Lookup in a parameter dictionary (`func_params.get(name)`). -/
def lookupP (params : List (String × String)) (n : String) : Option String :=
  (params.find? (fun p => p.1 == n)).map Prod.snd

/-- Python truthiness of a stored parameter value, on its canonical
rendering (the parameters at hand are bools). -/
def pyTruthy (s : String) : Bool :=
  s != "False" && s != "0" && s != "0.0" && s != "None" && s != ""

/-- The `args_to_remove` list `_build_fn_name` accumulates: always
`insample` and `num_threads`; `nonnegative` when it is absent or falsy;
`mint_shr_ridge` for a `MinTrace` with `method == 'mint_shrink'` still at
the default ridge `2e-8` (canonically rendered `2e-08`). -/
def removalList (tyName : String) (params : List (String × String)) : List String :=
  let args1 := ["insample", "num_threads"]
  let args2 :=
    if pyTruthy ((lookupP params "nonnegative").getD "False") then args1
    else args1 ++ ["nonnegative"]
  if tyName == "MinTrace" && lookupP params "method" == some "mint_shrink"
      && lookupP params "mint_shr_ridge" == some "2e-08" then
    args2 ++ ["mint_shr_ridge"]
  else args2

/-- The parameters that survive the removal filter, in dictionary order. -/
def keptParams (tyName : String) (params : List (String × String)) :
    List (String × String) :=
  params.filter (fun p => !((removalList tyName params).contains p.1))

/-- `'_'.join(tokens)`. -/
def joinTokens : List String → String
  | [] => ""
  | [t] => t
  | t :: ts => t ++ "_" ++ joinTokens ts

/-- `_build_fn_name`: the type name, then `name-value` tokens of the
surviving parameters joined by underscores. -/
def buildFnName (tyName : String) (params : List (String × String)) : String :=
  let tokens := (keptParams tyName params).map (fun p => p.1 ++ "-" ++ p.2)
  if tokens.isEmpty then tyName else tyName ++ "_" ++ joinTokens tokens

/-! ### `_reverse_engineer_sigmah` (§4.3 Interval Estimator) -/

/-- The message of the fatal missing-interval exception. -/
def piMsg (model : String) : String :=
  "Please include `" ++ model ++ "` prediction intervals in `Y_hat_df`"

/-- The message modelling the `IndexError`/`ValueError` the level parse
raises on an interval column name without a parsable numeric token. -/
def parseMsg (piCol : String) : String :=
  "could not parse a confidence level from `" ++ piCol ++ "`"

/-- The candidate interval columns `_reverse_engineer_sigmah` collects for
a model: every non-dropped column whose name contains `-lo` or `-hi` and
contains the model name, in frame order. -/
def codePiCols (Y_hat_df : Frame) (model : String) : List String :=
  let dropCols := ["ds"]
    ++ (if Y_hat_df.colNames.contains "y" then ["y"] else [])
    ++ (if Y_hat_df.colNames.contains (model ++ "-median") then [model ++ "-median"] else [])
  let modelNames := Y_hat_df.colNames.filter (fun n => !(dropCols.contains n))
  let piModelNames := modelNames.filter
    (fun n => containsSub "-lo" n || containsSub "-hi" n)
  piModelNames.filter (fun n => containsSub model n)

/-- The sign the source derives for an interval column: `-1` when the
name contains the substring `lo` anywhere, `+1` otherwise. -/
def codeSign (piCol : String) : ℚ :=
  if containsSub "lo" piCol then -1 else 1

/-- `_reverse_engineer_sigmah`.  `y_hat` is the model's point-forecast
array and the result the sigma array, both in flattened row-major form
(the source reshapes both to the same `(n_series, horizon)` grid, so the
elementwise arithmetic is position-for-position on the flat arrays).
`ppf` stands for `scipy.stats.norm.ppf`. -/
def reverseEngineerSigmah (ppf : ℚ → ℚ) (Y_hat_df : Frame) (y_hat : List ℚ)
    (model : String) : Except String (List ℚ) :=
  match codePiCols Y_hat_df model with
  | [] => .error (piMsg model)
  | piCol :: _ =>
    let sign : ℚ := codeSign piCol
    match lastNum piCol with
    | none => .error (parseMsg piCol)
    | some level =>
      let z := ppf (1/2 + level / 200)
      .ok ((Y_hat_df.colValsQ piCol).zipWith (fun v y => sign * (v - y) / z) y_hat)

/-! ### `_prepare_fit` (§4.1 Alignment & Validation) -/

/-- First-occurrence deduplication (`pd.Index.unique`). -/
def uniqueFirst (l : List String) : List String :=
  l.foldl (fun acc a => if acc.contains a then acc else acc ++ [a]) []

/-- Rank of a label in the canonical series order; labels outside the
order sort last (pandas puts the resulting NaN categories last). -/
def rankIn (order : List String) (x : String) : ℕ := order.indexOf x

/-- Apply a row permutation (given as a list of source positions). -/
def applyPerm (p : List ℕ) (l : List (Option ℚ)) : List (Option ℚ) :=
  p.map (fun i => (l.get? i).getD none)

/-- The `sort_df` block: a stable reordering of the rows by the rank of
their series label in `S_df`'s row order (rows of one series keep their
relative `ds` order, which the source's secondary `ds` key preserves for
the per-series time-sorted frames this API receives). -/
def sortFrame (sOrder : List String) (f : Frame) : Frame :=
  let n := f.index.length
  let perm := (List.range n).insertionSort
    (fun i j => rankIn sOrder ((f.index.get? i).getD "") < rankIn sOrder ((f.index.get? j).getD "")
      ∨ (rankIn sOrder ((f.index.get? i).getD "") = rankIn sOrder ((f.index.get? j).getD "") ∧ i ≤ j))
  { index := perm.map (fun i => (f.index.get? i).getD ""),
    cols := f.cols.map (fun p => (p.1, ⟨p.2.numeric, applyPerm perm p.2.vals⟩)) }

/-- The validated, reordered inputs `_prepare_fit` returns. -/
structure PrepOut where
  Y_hat : Frame
  sIndex : List String
  Y_df : Option Frame
  modelNames : List String
deriving DecidableEq, Repr

/-- The recognized interval-estimation strategies. -/
def recognizedMethods : List String := ["normality", "bootstrap", "permbu"]

/-- Message of the domain error on an out-of-range confidence level. -/
def levelDomainMsg : String := "Level outside domain, send `level` list in [0,100)"

/-- Message of the configuration error on an unknown strategy. -/
def unknownMethodMsg (m : String) : String := "Unkwon interval method: " ++ m

/-- Message of the missing-input error on an absent historical frame. -/
def needYdfMsg : String := "you need to pass `Y_df`"

/-- Message of the schema error on a non-numeric model column. -/
def nonNumericMsg : String := "`Y_hat_df`s columns contain non numeric types"

/-- Message of the schema error on a null model value. -/
def nullValsMsg : String := "`Y_hat_df` contains null values"

/-- Message of the schema error on models missing from `Y_df`. -/
def modelsYdfMsg : String := "Check `Y_hat_df`s models are included in `Y_df` columns"

/-- Message of the alignment error between `S_df` and `Y_hat_df`. -/
def sDiffMsg (sDiff yHatDiff : ℕ) : String :=
  "Check `S_df`, `Y_hat_df` series difference, S\\Y_hat=" ++ toString sDiff
    ++ ", Y_hat\\S=" ++ toString yHatDiff

/-- Message of the alignment error between `Y_hat_df` and `Y_df`. -/
def yDiffMsg (yHatDiff yDiff : ℕ) : String :=
  "Check `Y_hat_df`, `Y_df` series difference, Y_hat\\Y=" ++ toString yHatDiff
    ++ ", Y\\Y_hat=" ++ toString yDiff

/-- The guard of the level-domain check: some requested level outside
`[0, 100)` while the strategy is `normality` or `permbu` (no check at all
when no level list was requested). -/
def levelBad (level : Option (List PyNum)) (m : String) : Bool :=
  match level with
  | some ls => ls.any (fun l => l.val < 0 || 100 ≤ l.val)
      && (m == "normality" || m == "permbu")
  | none => false

/-- `_prepare_fit`: reorder the frames onto `S_df`'s series order, then
run the validation chain in source order, raising on the first failure. -/
def prepareFit (insample : Bool) (Y_hat_df0 : Frame) (sIndex : List String)
    (Y_df0 : Option Frame) (level : Option (List PyNum)) (intervalsMethod : String)
    (sortDf : Bool) : Except String PrepOut :=
  let Y_hat_df := if sortDf then sortFrame sIndex Y_hat_df0 else Y_hat_df0
  let Y_df := if sortDf then Y_df0.map (sortFrame sIndex) else Y_df0
  if !(recognizedMethods.contains intervalsMethod) then
    .error (unknownMethodMsg intervalsMethod)
  else if (insample || intervalsMethod == "bootstrap" || intervalsMethod == "permbu")
      && Y_df.isNone then
    .error needYdfMsg
  else if levelBad level intervalsMethod then
    .error levelDomainMsg
  else
    let dropCols := if Y_hat_df.colNames.contains "y" then ["ds", "y"] else ["ds"]
    let modelNames0 := Y_hat_df.colNames.filter (fun n => !(dropCols.contains n))
    if !(modelNames0.all (fun n => ((Y_hat_df.get? n).map ColData.numeric).getD false)) then
      .error nonNumericMsg
    else if modelNames0.any
        (fun n => (((Y_hat_df.get? n).map ColData.vals).getD []).any Option.isNone) then
      .error nullValsMsg
    else
      let piNames := modelNames0.filter
        (fun n => containsSub "-lo" n || containsSub "-hi" n || containsSub "-median" n)
      let modelNames := modelNames0.filter (fun n => !(piNames.contains n))
      if (intervalsMethod == "bootstrap" || intervalsMethod == "permbu")
          && !(modelNames.all (fun n =>
                ((Y_df.map (fun d => d.colNames.contains n)).getD false))) then
        .error modelsYdfMsg
      else
        let uids := uniqueFirst Y_hat_df.index
        let sDiff := ((uniqueFirst sIndex).filter (fun u => !(uids.contains u))).length
        let yHatDiff := (uids.filter (fun u => !(sIndex.contains u))).length
        if sDiff > 0 ∨ yHatDiff > 0 then
          .error (sDiffMsg sDiff yHatDiff)
        else
          match Y_df with
          | some ydf =>
            let yDiff := ((uniqueFirst ydf.index).filter (fun u => !(uids.contains u))).length
            let yHatDiff2 := (uids.filter (fun u => !(ydf.index.contains u))).length
            if yDiff > 0 ∨ yHatDiff2 > 0 then
              .error (yDiffMsg yHatDiff2 yDiff)
            else
              .ok ⟨Y_hat_df, uids, Y_df, modelNames⟩
          | none =>
            .ok ⟨Y_hat_df, uids, Y_df, modelNames⟩

/-! ### The dispatch loop (`HierarchicalReconciliation.reconcile`, §4.4/§4.5)

The pluggable reconciliation algorithms are external collaborators: an
instance is a `Reconciler` record of the attributes the orchestrator
introspects, and the numeric output of an invocation comes from an opaque
`Oracle` (indexed by the random seed, the instance and the model name).
The sparse-matrix construction, the index maps built from `tags`, and the
dense reshapes of `y_insample`/`y_hat` only feed that opaque call and are
not modelled; of the `y_hat_insample` block only its observable failure
(a missing per-model column in `Y_df`) is kept. -/

/-- A reconciliation-algorithm instance: its type name and `__dict__`
(for name resolution), its `insample` / `is_sparse_method` attributes,
and whether its signature accepts `y_hat_insample` / `level`. -/
structure Reconciler where
  tyName : String
  params : List (String × String)
  insample : Bool
  isSparse : Bool
  hasFitted : Bool
  hasLevel : Bool
deriving DecidableEq, Repr

/-- The arrays one algorithm invocation produces: the reconciled mean, the
flattened quantile array, and (in fit-then-sample mode) the flattened
coherent samples for a requested count. -/
structure ReconOut where
  mean : List ℚ
  quantiles : List ℚ
  sample : ℕ → List ℚ

/-- The external algorithms' behaviour: seed → instance → model → output. -/
abbrev Oracle := ℕ → Reconciler → String → ReconOut

/-- The orchestrator instance: the configured reconcilers, the deep copy
kept for name derivation, the derived needs-historical-values flag, and
the run-scoped attributes `reconcile` assigns (`none` before a first
call, mirroring an unset Python attribute). -/
structure HRState where
  reconcilers : List Reconciler
  origReconcilers : List Reconciler
  insample : Bool
  modelNames : Option (List String)
  executionTimes : Option (List (String × ℕ))
  levelNames : Option (List (String × List String))
  sampleNames : Option (List (String × List String))
deriving DecidableEq, Repr

/-- `HierarchicalReconciliation.__init__` (a deep copy of a value is the
value itself in this pure model). -/
def HRInit (recs : List Reconciler) : HRState :=
  ⟨recs, recs, recs.any Reconciler.insample, none, none, none, none⟩

/-- Python dict assignment `d[k] = v`: overwrite in place or append. -/
def dictInsert {α : Type} (d : List (String × α)) (k : String) (v : α) :
    List (String × α) :=
  if d.any (fun p => p.1 == k) then d.map (fun p => if p.1 == k then (k, v) else p)
  else d ++ [(k, v)]

/-- Interval column names for one `{model}/{algorithm}` key: `-lo-` names
for the levels in descending order, then `-hi-` names in ascending order
(`ls` is the already-sorted level list). -/
def loHiNames (key : String) (ls : List PyNum) : List String :=
  ls.reverse.map (fun v => key ++ "-lo-" ++ v.repr)
    ++ ls.map (fun v => key ++ "-hi-" ++ v.repr)

/-- Columns of a `(n_rows, names.length)` reshape of a flat array, named
`names` (the `pd.DataFrame(np.reshape(...), columns=names)` step). -/
def reshapeCols (names : List String) (q : List ℚ) (n : ℕ) : List (String × ColData) :=
  names.enum.map (fun jnm => (jnm.2,
    ⟨true, (List.range n).map (fun i => some (q.getD (i * names.length + jnm.1) 0))⟩))

/-- Sample column names for one `{model}/{algorithm}` key:
`{key}-sample-{i}` for `i` in `[0, k)`. -/
def sampleNamesOf (key : String) (k : ℕ) : List String :=
  (List.range k).map (fun i => key ++ "-sample-" ++ toString i)

/-- The running state of the dispatch loop: the output frame under
construction, the three run-scoped registries, the contents of the
caller's `level` list object, and the iteration counter standing in for
elapsed wall-clock time. -/
structure LoopAcc where
  Yt : Frame
  times : List (String × ℕ)
  levelNames : List (String × List String)
  sampleNames : List (String × List String)
  levelSt : Option (List PyNum)
  iter : ℕ
deriving DecidableEq, Repr

/-- The `{model}/{algorithm}` output key of one loop iteration, the
algorithm name resolved from the deep-copied instance. -/
def stepKey (p : (Reconciler × Reconciler) × String) : String :=
  p.2 ++ "/" ++ buildFnName p.1.2.tyName p.1.2.params

/-- One iteration of the dispatch loop for a `((reconciler, name copy),
model)` triple: the `y_hat_insample` lookup, the sigma reverse
engineering (the only two failure points), the algorithm invocation, the
mean-column assignment, the in-place `level.sort()`, and the interval and
sample blocks. -/
def reconcileStep (ppf : ℚ → ℚ) (oracle : Oracle) (stInsample : Bool) (method : String)
    (numSamples : ℤ) (seed : ℕ) (Yhat : Frame) (Ydf : Option Frame)
    (p : (Reconciler × Reconciler) × String) (acc : LoopAcc) : Except String LoopAcc :=
  let r := p.1.1
  let model := p.2
  let key := stepKey p
  if ((stInsample && r.hasFitted) || method == "bootstrap" || method == "permbu")
      && !((Ydf.map (fun d => d.colNames.contains model)).getD false) then
    .error ("KeyError: " ++ model)
  else
    match (if r.hasLevel && acc.levelSt.isSome
              && (method == "normality" || method == "permbu") then
             reverseEngineerSigmah ppf Yhat (Yhat.colValsQ model) model
           else .ok []) with
    | .error e => .error e
    | .ok _ =>
      let fc := oracle seed r model
      let n := acc.Yt.index.length
      let Yt1 := frameSetCol acc.Yt key (fc.mean.map some)
      match acc.levelSt with
      | some ls =>
        if recognizedMethods.contains method then
          let sorted := pySort ls
          let names := loHiNames key sorted
          let Yt2 := frameAppendCols Yt1 (reshapeCols names fc.quantiles n)
          let lnames := dictInsert acc.levelNames key names
          if numSamples > 0 then
            let k := numSamples.toNat
            let snames := sampleNamesOf key k
            let Yt3 := frameAppendCols Yt2 (reshapeCols snames (fc.sample k) n)
            .ok ⟨Yt3, dictInsert acc.times key acc.iter, lnames,
                 dictInsert acc.sampleNames key snames, some sorted, acc.iter + 1⟩
          else
            .ok ⟨Yt2, dictInsert acc.times key acc.iter, lnames,
                 acc.sampleNames, some sorted, acc.iter + 1⟩
        else
          .ok ⟨Yt1, dictInsert acc.times key acc.iter, acc.levelNames,
               acc.sampleNames, acc.levelSt, acc.iter + 1⟩
      | none =>
        .ok ⟨Yt1, dictInsert acc.times key acc.iter, acc.levelNames,
             acc.sampleNames, acc.levelSt, acc.iter + 1⟩

/-- The dispatch loop.  A raised exception aborts the remaining
iterations; the loop state already accumulated stays on the instance, so
the partial accumulator is returned alongside the error. -/
def loopGo (ppf : ℚ → ℚ) (oracle : Oracle) (stInsample : Bool) (method : String)
    (numSamples : ℤ) (seed : ℕ) (Yhat : Frame) (Ydf : Option Frame) :
    List ((Reconciler × Reconciler) × String) → LoopAcc → LoopAcc × Option String
  | [], acc => (acc, none)
  | p :: ps, acc =>
    match reconcileStep ppf oracle stInsample method numSamples seed Yhat Ydf p acc with
    | .error e => (acc, some e)
    | .ok a => loopGo ppf oracle stInsample method numSamples seed Yhat Ydf ps a

/-- What a `reconcile` call leaves behind: the instance state after the
call, the contents of the caller's `level` list object (mutated in place
by `level.sort()`), and the returned frame or the raised exception. -/
structure RMResult where
  state : HRState
  levelFinal : Option (List PyNum)
  result : Except String Frame
deriving Repr

/-- `HierarchicalReconciliation.reconcile`: validate and reorder via
`_prepare_fit` (a failure there propagates before any run-scoped
attribute is assigned), assign the run-scoped attributes, run the
dispatch loop over reconcilers × models, and return the assembled frame. -/
def reconcileMethod (ppf : ℚ → ℚ) (oracle : Oracle) (st : HRState) (Yhat0 : Frame)
    (sIndex : List String) (Ydf0 : Option Frame) (level0 : Option (List PyNum))
    (method : String) (numSamples : ℤ) (seed : ℕ) (sortDf : Bool) : RMResult :=
  match prepareFit st.insample Yhat0 sIndex Ydf0 level0 method sortDf with
  | .error e => ⟨st, level0, .error e⟩
  | .ok prep =>
    let pairs := (st.reconcilers.zip st.origReconcilers).flatMap
      (fun rp => prep.modelNames.map (fun m => (rp, m)))
    let acc0 : LoopAcc := ⟨prep.Y_hat, [], [], [], level0, 0⟩
    let res := loopGo ppf oracle st.insample method numSamples seed prep.Y_hat prep.Y_df
      pairs acc0
    let st2 := { st with
      modelNames := some prep.modelNames
      executionTimes := some res.1.times
      levelNames := some res.1.levelNames
      sampleNames := some res.1.sampleNames }
    match res.2 with
    | some e => ⟨st2, res.1.levelSt, .error e⟩
    | none => ⟨st2, res.1.levelSt, .ok res.1.Yt⟩

/-! ### `bootstrap_reconcile` (§4.6 Bootstrap Orchestrator) -/

/-- The per-seed loop of `bootstrap_reconcile`: run `reconcile` for each
seed (threading the mutated instance state and the shared `level` list
object), append the `seed` column, record the first seed's column layout
and force it positionally onto every later frame. -/
def bootstrapGo (ppf : ℚ → ℚ) (oracle : Oracle) (Yhat : Frame) (sIndex : List String)
    (Ydf : Option Frame) (method : String) (numSamples : ℤ) :
    List ℕ → HRState → Option (List PyNum) → Option (List String) → List Frame →
    HRState × Except String (List Frame)
  | [], st, _, _, accFrames => (st, .ok accFrames)
  | s :: ss, st, lvl, firstCols, accFrames =>
    let r := reconcileMethod ppf oracle st Yhat sIndex Ydf lvl method numSamples s false
    match r.result with
    | .error e => (r.state, .error e)
    | .ok f =>
      let f1 := frameSetCol f "seed" ((List.range f.index.length).map (fun _ => some (s : ℚ)))
      let fc := if s = 0 then f1.colNames else firstCols.getD f1.colNames
      match frameRename fc f1 with
      | .error e => (r.state, .error e)
      | .ok f2 =>
        bootstrapGo ppf oracle Yhat sIndex Ydf method numSamples ss r.state r.levelFinal
          (some fc) (accFrames ++ [f2])

/-- `HierarchicalReconciliation.bootstrap_reconcile`: validate once (with
no `level`), then run the full pipeline once per seed in
`[0, num_seeds)` and concatenate the frames row-wise. -/
def bootstrapReconcile (ppf : ℚ → ℚ) (oracle : Oracle) (st : HRState) (Yhat0 : Frame)
    (sIndex : List String) (Ydf0 : Option Frame) (level0 : Option (List PyNum))
    (method : String) (numSamples : ℤ) (numSeeds : ℕ) (sortDf : Bool) :
    HRState × Except String Frame :=
  match prepareFit st.insample Yhat0 sIndex Ydf0 none method sortDf with
  | .error e => (st, .error e)
  | .ok prep =>
    let st1 := { st with modelNames := some prep.modelNames }
    match bootstrapGo ppf oracle prep.Y_hat prep.sIndex prep.Y_df method numSamples
        (List.range numSeeds) st1 level0 none [] with
    | (st2, .error e) => (st2, .error e)
    | (st2, .ok frames) =>
      match vconcat frames with
      | .error e => (st2, .error e)
      | .ok f => (st2, .ok f)

/-! ### Spec-side definitions (for refinement comparison)

These follow the words of the specification, in contrast to the
definitions above, which follow the source. -/

/-- Modelled from the spec (§4.3 step 4): the sign of the sigma recovery
is `−1` for a lower-bound (`-lo-`) column and `+1` for an upper-bound
(`-hi-`) column. -/
def specSign (piCol : String) : ℚ :=
  if containsSub "-lo-" piCol then -1 else 1

/-- Modelled from the spec (glossary and §4.1): the resampling-based
interval-estimation strategies are `bootstrap` (resampling residuals) and
`permbu` (rank-based resampling). -/
def specResamplingBased (m : String) : Bool :=
  m == "bootstrap" || m == "permbu"

/-- Modelled from the spec (§3 data model, §4.3 step 1): a
prediction-interval column for a model is a column whose name matches the
model and contains `-lo-` or `-hi-`. -/
def specHasPiCol (f : Frame) (m : String) : Bool :=
  f.colNames.any (fun n =>
    containsSub m n && (containsSub "-lo-" n || containsSub "-hi-" n))

/-! ### Decidability of result observations -/

deriving instance DecidableEq for Except

/-! ### Basic lemmas about the sort and substring helpers -/

theorem pySort_perm (l : List PyNum) : (pySort l).Perm l :=
  List.perm_insertionSort _ l

theorem pySort_sorted (l : List PyNum) :
    (pySort l).Sorted (fun a b => a.val ≤ b.val) := by
  haveI : IsTotal PyNum (fun a b => a.val ≤ b.val) := ⟨fun a b => le_total a.val b.val⟩
  haveI : IsTrans PyNum (fun a b => a.val ≤ b.val) :=
    ⟨fun a b c hab hbc => le_trans hab hbc⟩
  exact List.sorted_insertionSort _ l

theorem pySort_idem (l : List PyNum) : pySort (pySort l) = pySort l :=
  List.Sorted.insertionSort_eq (pySort_sorted l)

theorem subList_infix_iff (n : List Char) : ∀ l : List Char,
    subList n l = true ↔ n <:+: l := by
  intro l
  induction l with
  | nil =>
    simp [subList, List.isEmpty_iff]
  | cons c cs ih =>
    simp only [subList, Bool.or_eq_true, List.isPrefixOf_iff_prefix, ih]
    exact (List.infix_cons_iff).symm

theorem containsSub_infix_iff (n h : String) :
    containsSub n h = true ↔ n.data <:+: h.data := subList_infix_iff n.data h.data

/-- A string occurs in any string of which it is the middle part. -/
theorem containsSub_middle (a m b : String) : containsSub m (a ++ m ++ b) = true := by
  rw [containsSub_infix_iff]
  refine ⟨a.data, b.data, ?_⟩
  rw [String.data_append, String.data_append]

/-- Two appends with distinct literal head characters differ. -/
theorem append_ne_of_head_ne (ca cb : Char) {pa pb a b : String}
    (ha : pa.data.head? = some ca) (hb : pb.data.head? = some cb) (hne : ca ≠ cb) :
    pa ++ a ≠ pb ++ b := by
  intro h
  have h2 := congrArg String.data h
  rw [String.data_append, String.data_append] at h2
  have h3 := congrArg List.head? h2
  cases hpa : pa.data with
  | nil => rw [hpa] at ha; simp at ha
  | cons x xs =>
    cases hpb : pb.data with
    | nil => rw [hpb] at hb; simp at hb
    | cons y ys =>
      rw [hpa] at ha h3
      rw [hpb] at hb h3
      simp only [List.cons_append, List.head?_cons, Option.some.injEq] at ha hb h3
      exact hne (by rw [← ha, ← hb]; exact h3)

/-! ### Cancellation and length lemmas for name building -/

theorem strCancelLeft {c a b : String} (h : c ++ a = c ++ b) : a = b := by
  have h2 := congrArg String.data h
  rw [String.data_append, String.data_append] at h2
  exact String.ext (List.append_cancel_left h2)

theorem strCancelRight {a b c : String} (h : a ++ c = b ++ c) : a = b := by
  have h2 := congrArg String.data h
  rw [String.data_append, String.data_append] at h2
  exact String.ext (List.append_cancel_right h2)

theorem joinTokens_cons (t : String) {ts : List String} (h : ts ≠ []) :
    joinTokens (t :: ts) = t ++ "_" ++ joinTokens ts := by
  cases ts with
  | nil => exact absurd rfl h
  | cons u us => rfl

theorem joinTokens_ne : ∀ (A : List String) {x y : String} (B : List String),
    x ≠ y → joinTokens (A ++ x :: B) ≠ joinTokens (A ++ y :: B) := by
  intro A
  induction A with
  | nil =>
    intro x y B hxy
    cases B with
    | nil => simpa [joinTokens] using hxy
    | cons b bs =>
      rw [List.nil_append, List.nil_append,
        joinTokens_cons x (by simp), joinTokens_cons y (by simp)]
      intro h
      exact hxy (strCancelRight (strCancelRight h))
  | cons a A ih =>
    intro x y B hxy
    rw [List.cons_append, List.cons_append,
      joinTokens_cons a (by simp), joinTokens_cons a (by simp)]
    intro h
    exact ih B hxy (strCancelLeft h)

theorem joinTokens_length : ∀ (t : String) (ts : List String),
    (joinTokens (t :: ts)).length + 1 = ((t :: ts).map String.length).sum + (t :: ts).length := by
  intro t ts
  induction ts generalizing t with
  | nil => simp [joinTokens]
  | cons u vs ih =>
    rw [joinTokens_cons t (by simp)]
    have h := ih u
    have hu : ("_" : String).length = 1 := rfl
    simp only [String.length_append, List.map_cons, List.sum_cons, List.length_cons, hu] at h ⊢
    omega

/-! ### Lookup lemmas for parameter dictionaries -/

theorem lookupP_cons (pr : String × String) (l : List (String × String)) (x : String) :
    lookupP (pr :: l) x = if pr.1 == x then some pr.2 else lookupP l x := by
  simp only [lookupP, List.find?_cons]
  cases h : (pr.1 == x) <;> simp [h]

theorem lookupP_append (l₁ l₂ : List (String × String)) (x : String) :
    lookupP (l₁ ++ l₂) x = (lookupP l₁ x).or (lookupP l₂ x) := by
  simp only [lookupP, List.find?_append]
  cases List.find? (fun p => p.1 == x) l₁ <;> simp

theorem lookupP_eq_none_of_notMem {l : List (String × String)} {x : String}
    (h : x ∉ l.map Prod.fst) : lookupP l x = none := by
  induction l with
  | nil => rfl
  | cons pr ps ih =>
    simp only [List.map_cons, List.mem_cons, not_or] at h
    rw [lookupP_cons, if_neg (by simp only [beq_iff_eq]; exact fun he => h.1 he.symm)]
    exact ih h.2

theorem lookupP_decomp {l : List (String × String)} {x v : String}
    (h : lookupP l x = some v) : ∃ L₁ L₂, l = L₁ ++ (x, v) :: L₂ := by
  induction l with
  | nil => simp [lookupP] at h
  | cons pr ps ih =>
    rw [lookupP_cons] at h
    by_cases he : (pr.1 == x) = true
    · rw [if_pos he] at h
      refine ⟨[], ps, ?_⟩
      have h1 : pr.1 = x := by simpa [beq_iff_eq] using he
      have h2 : pr.2 = v := by simpa using h
      simp [← h1, ← h2]
    · rw [if_neg he] at h
      obtain ⟨L₁, L₂, hl⟩ := ih h
      exact ⟨pr :: L₁, L₂, by rw [hl]; rfl⟩

theorem containsAppend (l₁ l₂ : List String) (a : String) :
    (l₁ ++ l₂).contains a = (l₁.contains a || l₂.contains a) := by
  rw [Bool.eq_iff_iff]
  simp only [Bool.or_eq_true, List.elem_iff, List.mem_append]

theorem joinTokens_length' {ts : List String} (h : ts ≠ []) :
    (joinTokens ts).length + 1 = (ts.map String.length).sum + ts.length := by
  cases ts with
  | nil => exact absurd rfl h
  | cons t us => exact joinTokens_length t us

theorem tokLen (x : String × String) :
    (x.1 ++ "-" ++ x.2).length = x.1.length + 1 + x.2.length := by
  have h1 : ("-" : String).length = 1 := rfl
  simp only [String.length_append, h1]

/-- Dropping a name that never occurs in a parameter list does not change
the filter. -/
theorem filter_extra_name {l : List (String × String)} {nm : String} (X : List String)
    (h : nm ∉ l.map Prod.fst) :
    l.filter (fun x => !((X ++ [nm]).contains x.1)) = l.filter (fun x => !(X.contains x.1)) := by
  apply List.filter_congr
  intro x hx
  have hne : x.1 ≠ nm := fun he => h (he ▸ List.mem_map_of_mem Prod.fst hx)
  rw [containsAppend]
  have h2 : ([nm].contains x.1) = false := by
    rw [← Bool.not_eq_true, List.elem_iff]
    simp [hne]
  rw [h2, Bool.or_false]

theorem notMem_parts {α : Type} {L M : List α} {x : α}
    (h : (L ++ x :: M).Nodup) : x ∉ L ∧ x ∉ M := by
  rw [List.nodup_middle, List.nodup_cons, List.mem_append] at h
  exact ⟨fun hm => h.1 (Or.inl hm), fun hm => h.1 (Or.inr hm)⟩

/-- Equal resolved names force equal total token length (token lengths
plus separator count). -/
theorem buildFnName_eq_length {ty : String} {K₁ K₂ : List (String × String)}
    (h₁ : K₁ ≠ []) (h₂ : K₂ ≠ [])
    (h : (if (K₁.map (fun x => x.1 ++ "-" ++ x.2)).isEmpty then ty
          else ty ++ "_" ++ joinTokens (K₁.map (fun x => x.1 ++ "-" ++ x.2)))
       = (if (K₂.map (fun x => x.1 ++ "-" ++ x.2)).isEmpty then ty
          else ty ++ "_" ++ joinTokens (K₂.map (fun x => x.1 ++ "-" ++ x.2)))) :
    (K₁.map (fun x => x.1.length + 1 + x.2.length)).sum + K₁.length
      = (K₂.map (fun x => x.1.length + 1 + x.2.length)).sum + K₂.length := by
  have e₁ : (K₁.map (fun x => x.1 ++ "-" ++ x.2)).isEmpty = false := by
    cases K₁ with
    | nil => exact absurd rfl h₁
    | cons a l => rfl
  have e₂ : (K₂.map (fun x => x.1 ++ "-" ++ x.2)).isEmpty = false := by
    cases K₂ with
    | nil => exact absurd rfl h₂
    | cons a l => rfl
  rw [e₁, e₂] at h
  simp only [Bool.false_eq_true, if_false] at h
  have hj := congrArg String.length (strCancelLeft h)
  have hn₁ : K₁.map (fun x => x.1 ++ "-" ++ x.2) ≠ [] := by
    intro hh; exact h₁ (List.map_eq_nil_iff.mp hh)
  have hn₂ : K₂.map (fun x => x.1 ++ "-" ++ x.2) ≠ [] := by
    intro hh; exact h₂ (List.map_eq_nil_iff.mp hh)
  have hl₁ := joinTokens_length' hn₁
  have hl₂ := joinTokens_length' hn₂
  rw [List.map_map] at hl₁ hl₂
  have hc₁ : K₁.map (String.length ∘ fun x => x.1 ++ "-" ++ x.2)
      = K₁.map (fun x => x.1.length + 1 + x.2.length) :=
    List.map_congr_left (fun a _ => tokLen a)
  have hc₂ : K₂.map (String.length ∘ fun x => x.1 ++ "-" ++ x.2)
      = K₂.map (fun x => x.1.length + 1 + x.2.length) :=
    List.map_congr_left (fun a _ => tokLen a)
  rw [hc₁, List.length_map] at hl₁
  rw [hc₂, List.length_map] at hl₂
  omega

/-- Injectivity of the name resolver across the one removal-set flip:
changing `method` away from `mint_shrink` on a `MinTrace` holding
`mint_shr_ridge` at its default cannot preserve the resolved name — the
name gains the 20-character ridge token plus a separator while the
18-character method token is merely replaced. -/
theorem buildFnName_mint_flip (w : String) (P₁ P₂ : List (String × String))
    (X : List String)
    (hnd : ((P₁ ++ ("method", "mint_shrink") :: P₂).map Prod.fst).Nodup)
    (hmint : lookupP (P₁ ++ ("method", "mint_shrink") :: P₂) "mint_shr_ridge"
      = some "2e-08")
    (hXme : X.contains "method" = false) (hXmi : X.contains "mint_shr_ridge" = false)
    (hRp : removalList "MinTrace" (P₁ ++ ("method", "mint_shrink") :: P₂)
      = X ++ ["mint_shr_ridge"])
    (hRq : removalList "MinTrace" (P₁ ++ ("method", w) :: P₂) = X) :
    buildFnName "MinTrace" (P₁ ++ ("method", "mint_shrink") :: P₂)
      ≠ buildFnName "MinTrace" (P₁ ++ ("method", w) :: P₂) := by
  intro h
  have hc1 : (X ++ ["mint_shr_ridge"]).contains "mint_shr_ridge" = true := by
    rw [containsAppend, hXmi]; decide
  have hc2 : (X ++ ["mint_shr_ridge"]).contains "method" = false := by
    rw [containsAppend, hXme]; decide
  have l6 : ("method" : String).length = 6 := rfl
  have l11 : ("mint_shrink" : String).length = 11 := rfl
  have l14 : ("mint_shr_ridge" : String).length = 14 := rfl
  have l5 : ("2e-08" : String).length = 5 := rfl
  unfold buildFnName keptParams at h
  rw [hRp, hRq] at h
  rw [lookupP_append] at hmint
  cases hl : lookupP P₁ "mint_shr_ridge" with
  | some e =>
    rw [hl] at hmint
    have hmint2 : e = "2e-08" := by
      have : (some e).or (lookupP (("method", "mint_shrink") :: P₂) "mint_shr_ridge")
          = some e := rfl
      rw [this] at hmint
      exact Option.some.inj hmint
    rw [hmint2] at hl
    obtain ⟨A, B, rfl⟩ := lookupP_decomp hl
    have hnames : (((A ++ ("mint_shr_ridge", "2e-08") :: B)
        ++ ("method", "mint_shrink") :: P₂).map Prod.fst)
        = A.map Prod.fst ++ "mint_shr_ridge"
          :: (B.map Prod.fst ++ "method" :: P₂.map Prod.fst) := by
      simp
    rw [hnames] at hnd
    have hmi := notMem_parts hnd
    have hmiB : "mint_shr_ridge" ∉ B.map Prod.fst := fun hm => hmi.2 (by simp [hm])
    have hmiP : "mint_shr_ridge" ∉ P₂.map Prod.fst := fun hm => hmi.2 (by simp [hm])
    have eK₁ : ((A ++ ("mint_shr_ridge", "2e-08") :: B) ++ ("method", "mint_shrink") :: P₂).filter
          (fun x => !((X ++ ["mint_shr_ridge"]).contains x.1))
        = (A.filter (fun x => !(X.contains x.1)) ++ B.filter (fun x => !(X.contains x.1)))
          ++ ("method", "mint_shrink") :: P₂.filter (fun x => !(X.contains x.1)) := by
      simp only [List.filter_append, List.filter_cons, hc1, hc2,
        filter_extra_name X hmi.1, filter_extra_name X hmiB, filter_extra_name X hmiP]
      simp
    have eK₂ : ((A ++ ("mint_shr_ridge", "2e-08") :: B) ++ ("method", w) :: P₂).filter
          (fun x => !(X.contains x.1))
        = (A.filter (fun x => !(X.contains x.1))
            ++ ("mint_shr_ridge", "2e-08") :: B.filter (fun x => !(X.contains x.1)))
          ++ ("method", w) :: P₂.filter (fun x => !(X.contains x.1)) := by
      simp only [List.filter_append, List.filter_cons, hXmi, hXme]
      simp
    rw [eK₁, eK₂] at h
    have heq := buildFnName_eq_length (by simp) (by simp) h
    simp only [List.map_append, List.map_cons, List.sum_append, List.sum_cons,
      List.length_append, List.length_cons, l6, l11, l14, l5] at heq
    omega
  | none =>
    rw [hl] at hmint
    have hn : (Option.none).or (lookupP (("method", "mint_shrink") :: P₂) "mint_shr_ridge")
        = lookupP (("method", "mint_shrink") :: P₂) "mint_shr_ridge" := rfl
    rw [hn] at hmint
    rw [lookupP_cons, if_neg (by decide)] at hmint
    obtain ⟨A, B, rfl⟩ := lookupP_decomp hmint
    have hnames : ((P₁ ++ ("method", "mint_shrink") :: (A ++ ("mint_shr_ridge", "2e-08") :: B)).map
          Prod.fst)
        = (P₁.map Prod.fst ++ "method" :: A.map Prod.fst)
          ++ "mint_shr_ridge" :: B.map Prod.fst := by
      simp
    rw [hnames] at hnd
    have hmi := notMem_parts hnd
    have hmiP : "mint_shr_ridge" ∉ P₁.map Prod.fst := fun hm => hmi.1 (by simp [hm])
    have hmiA : "mint_shr_ridge" ∉ A.map Prod.fst := fun hm => hmi.1 (by simp [hm])
    have eK₁ : (P₁ ++ ("method", "mint_shrink") :: (A ++ ("mint_shr_ridge", "2e-08") :: B)).filter
          (fun x => !((X ++ ["mint_shr_ridge"]).contains x.1))
        = P₁.filter (fun x => !(X.contains x.1))
          ++ ("method", "mint_shrink")
          :: (A.filter (fun x => !(X.contains x.1)) ++ B.filter (fun x => !(X.contains x.1))) := by
      simp only [List.filter_append, List.filter_cons, hc1, hc2,
        filter_extra_name X hmiP, filter_extra_name X hmiA, filter_extra_name X hmi.2]
      simp
    have eK₂ : (P₁ ++ ("method", w) :: (A ++ ("mint_shr_ridge", "2e-08") :: B)).filter
          (fun x => !(X.contains x.1))
        = P₁.filter (fun x => !(X.contains x.1))
          ++ ("method", w)
          :: (A.filter (fun x => !(X.contains x.1))
              ++ ("mint_shr_ridge", "2e-08") :: B.filter (fun x => !(X.contains x.1))) := by
      simp only [List.filter_append, List.filter_cons, hXmi, hXme]
      simp
    rw [eK₁, eK₂] at h
    have heq := buildFnName_eq_length (by simp) (by simp) h
    simp only [List.map_append, List.map_cons, List.sum_append, List.sum_cons,
      List.length_append, List.length_cons, l6, l11, l14, l5] at heq
    omega

/-- A parameter dictionary whose removal list does not exclude
`nonnegative` stores a truthy `nonnegative`. -/
theorem removalList_nonneg_truthy {ty : String} {params : List (String × String)}
    (h : (removalList ty params).contains "nonnegative" = false) :
    pyTruthy ((lookupP params "nonnegative").getD "False") = true := by
  by_contra hf
  rw [Bool.not_eq_true] at hf
  unfold removalList at h
  rw [hf] at h
  simp only [Bool.false_eq_true, if_false] at h
  revert h
  split <;> intro h <;> rw [containsAppend] at h <;> simp at h

/-- A parameter dictionary whose removal list does not exclude
`mint_shr_ridge` fails the default-ridge suppression condition. -/
theorem removalList_mint_cond {ty : String} {params : List (String × String)}
    (h : (removalList ty params).contains "mint_shr_ridge" = false) :
    (ty == "MinTrace" && lookupP params "method" == some "mint_shrink"
      && lookupP params "mint_shr_ridge" == some "2e-08") = false := by
  by_contra hf
  rw [Bool.not_eq_false] at hf
  unfold removalList at h
  rw [if_pos hf, containsAppend] at h
  simp at h

/-- The removal list only depends on the truthiness of `nonnegative` and
the `method` / `mint_shr_ridge` lookups. -/
theorem removalList_congr {ty : String} {p q : List (String × String)}
    (hnn : pyTruthy ((lookupP p "nonnegative").getD "False")
         = pyTruthy ((lookupP q "nonnegative").getD "False"))
    (hme : lookupP p "method" = lookupP q "method")
    (hmi : lookupP p "mint_shr_ridge" = lookupP q "mint_shr_ridge") :
    removalList ty p = removalList ty q := by
  unfold removalList
  rw [hnn, hme, hmi]

theorem isEmpty_append_cons {α : Type} (K : List α) (c : α) (L : List α) :
    (K ++ c :: L).isEmpty = false := by
  cases K <;> rfl

/-- Changing the stored value of one parameter that is kept (not
excluded) under both configurations changes the resolved name. -/
theorem buildFnName_single_change (ty n v w : String) (P₁ P₂ : List (String × String))
    (hvw : v ≠ w)
    (hnd : ((P₁ ++ (n, v) :: P₂).map Prod.fst).Nodup)
    (hkv : (removalList ty (P₁ ++ (n, v) :: P₂)).contains n = false)
    (hkw : (removalList ty (P₁ ++ (n, w) :: P₂)).contains n = false) :
    buildFnName ty (P₁ ++ (n, v) :: P₂) ≠ buildFnName ty (P₁ ++ (n, w) :: P₂) := by
  have hnP : n ∉ P₁.map Prod.fst ∧ n ∉ P₂.map Prod.fst :=
    notMem_parts (by simpa using hnd)
  have hlook2 : ∀ u₁ u₂ x, x ≠ n →
      lookupP (P₁ ++ (n, u₁) :: P₂) x = lookupP (P₁ ++ (n, u₂) :: P₂) x := by
    intro u₁ u₂ x hx
    rw [lookupP_append, lookupP_append, lookupP_cons, lookupP_cons,
      if_neg (by simp only [beq_iff_eq]; exact fun he => hx he.symm),
      if_neg (by simp only [beq_iff_eq]; exact fun he => hx he.symm)]
  have hlookn : ∀ u, lookupP (P₁ ++ (n, u) :: P₂) n = some u := by
    intro u
    rw [lookupP_append, lookupP_eq_none_of_notMem hnP.1, lookupP_cons, if_pos (by simp)]
    rfl
  by_cases hR : removalList ty (P₁ ++ (n, v) :: P₂) = removalList ty (P₁ ++ (n, w) :: P₂)
  · intro h
    unfold buildFnName keptParams at h
    rw [← hR] at h
    have e₁ : (P₁ ++ (n, v) :: P₂).filter
          (fun x => !((removalList ty (P₁ ++ (n, v) :: P₂)).contains x.1))
        = P₁.filter (fun x => !((removalList ty (P₁ ++ (n, v) :: P₂)).contains x.1))
          ++ (n, v) :: P₂.filter
            (fun x => !((removalList ty (P₁ ++ (n, v) :: P₂)).contains x.1)) := by
      simp only [List.filter_append, List.filter_cons, hkv]
      simp
    have e₂ : (P₁ ++ (n, w) :: P₂).filter
          (fun x => !((removalList ty (P₁ ++ (n, v) :: P₂)).contains x.1))
        = P₁.filter (fun x => !((removalList ty (P₁ ++ (n, v) :: P₂)).contains x.1))
          ++ (n, w) :: P₂.filter
            (fun x => !((removalList ty (P₁ ++ (n, v) :: P₂)).contains x.1)) := by
      simp only [List.filter_append, List.filter_cons, hkv]
      simp
    rw [e₁, e₂] at h
    simp only [List.map_append, List.map_cons, isEmpty_append_cons,
      Bool.false_eq_true, if_false] at h
    have hj := strCancelLeft h
    exact joinTokens_ne _ _ (fun hh => hvw (strCancelLeft hh)) hj
  · by_cases hn1 : n = "nonnegative"
    · subst hn1
      have ht₁ := removalList_nonneg_truthy hkv
      have ht₂ := removalList_nonneg_truthy hkw
      rw [hlookn v] at ht₁
      rw [hlookn w] at ht₂
      simp only [Option.getD_some] at ht₁ ht₂
      exact absurd (removalList_congr
        (by rw [hlookn v, hlookn w]; simp only [Option.getD_some, ht₁, ht₂])
        (hlook2 v w "method" (by decide))
        (hlook2 v w "mint_shr_ridge" (by decide))) hR
    · by_cases hn3 : n = "mint_shr_ridge"
      · subst hn3
        have c₁ := removalList_mint_cond hkv
        have c₂ := removalList_mint_cond hkw
        refine absurd ?_ hR
        unfold removalList
        rw [c₁, c₂]
        simp only [Bool.false_eq_true, if_false]
        rw [hlook2 v w "nonnegative" (by decide)]
      · by_cases hn2 : n = "method"
        · subst hn2
          have hnneq : lookupP (P₁ ++ ("method", v) :: P₂) "nonnegative"
              = lookupP (P₁ ++ ("method", w) :: P₂) "nonnegative" :=
            hlook2 v w "nonnegative" (by decide)
          have hmieq : lookupP (P₁ ++ ("method", v) :: P₂) "mint_shr_ridge"
              = lookupP (P₁ ++ ("method", w) :: P₂) "mint_shr_ridge" :=
            hlook2 v w "mint_shr_ridge" (by decide)
          set A2 := (if pyTruthy ((lookupP (P₁ ++ ("method", v) :: P₂)
            "nonnegative").getD "False") then ["insample", "num_threads"]
            else ["insample", "num_threads"] ++ ["nonnegative"]) with hA2
          have hXme : A2.contains "method" = false := by
            rw [hA2]; split <;> decide
          have hXmi : A2.contains "mint_shr_ridge" = false := by
            rw [hA2]; split <;> decide
          have hRp0 : removalList ty (P₁ ++ ("method", v) :: P₂)
              = if (ty == "MinTrace"
                  && lookupP (P₁ ++ ("method", v) :: P₂) "method" == some "mint_shrink"
                  && lookupP (P₁ ++ ("method", v) :: P₂) "mint_shr_ridge" == some "2e-08")
                then A2 ++ ["mint_shr_ridge"] else A2 := by
            unfold removalList
            rw [hA2]
          have hRq0 : removalList ty (P₁ ++ ("method", w) :: P₂)
              = if (ty == "MinTrace"
                  && lookupP (P₁ ++ ("method", w) :: P₂) "method" == some "mint_shrink"
                  && lookupP (P₁ ++ ("method", w) :: P₂) "mint_shr_ridge" == some "2e-08")
                then A2 ++ ["mint_shr_ridge"] else A2 := by
            unfold removalList
            rw [← hnneq, hA2]
          by_cases hCp : (ty == "MinTrace"
              && lookupP (P₁ ++ ("method", v) :: P₂) "method" == some "mint_shrink"
              && lookupP (P₁ ++ ("method", v) :: P₂) "mint_shr_ridge" == some "2e-08") = true
          · by_cases hCq : (ty == "MinTrace"
                && lookupP (P₁ ++ ("method", w) :: P₂) "method" == some "mint_shrink"
                && lookupP (P₁ ++ ("method", w) :: P₂) "mint_shr_ridge" == some "2e-08") = true
            · exact absurd (by rw [hRp0, hRq0, if_pos hCp, if_pos hCq]) hR
            · simp only [Bool.and_eq_true, beq_iff_eq] at hCp
              obtain ⟨⟨hty, hmev⟩, hmiv⟩ := hCp
              rw [hlookn v] at hmev
              obtain rfl : v = "mint_shrink" := Option.some.inj hmev
              subst hty
              have hcond : ("MinTrace" == "MinTrace"
                  && lookupP (P₁ ++ ("method", "mint_shrink") :: P₂) "method"
                    == some "mint_shrink"
                  && lookupP (P₁ ++ ("method", "mint_shrink") :: P₂) "mint_shr_ridge"
                    == some "2e-08") = true := by
                rw [hlookn, hmiv]; decide
              exact buildFnName_mint_flip w P₁ P₂ A2 hnd hmiv hXme hXmi
                (by rw [hRp0, if_pos hcond]) (by rw [hRq0, if_neg hCq])
          · by_cases hCq : (ty == "MinTrace"
                && lookupP (P₁ ++ ("method", w) :: P₂) "method" == some "mint_shrink"
                && lookupP (P₁ ++ ("method", w) :: P₂) "mint_shr_ridge" == some "2e-08") = true
            · simp only [Bool.and_eq_true, beq_iff_eq] at hCq
              obtain ⟨⟨hty, hmew⟩, hmiw⟩ := hCq
              rw [hlookn w] at hmew
              obtain rfl : w = "mint_shrink" := Option.some.inj hmew
              subst hty
              have hnd2 : ((P₁ ++ ("method", "mint_shrink") :: P₂).map Prod.fst).Nodup := by
                have he : (P₁ ++ ("method", v) :: P₂).map Prod.fst
                    = (P₁ ++ ("method", "mint_shrink") :: P₂).map Prod.fst := by simp
                rw [← he]
                exact hnd
              have hcond : ("MinTrace" == "MinTrace"
                  && lookupP (P₁ ++ ("method", "mint_shrink") :: P₂) "method"
                    == some "mint_shrink"
                  && lookupP (P₁ ++ ("method", "mint_shrink") :: P₂) "mint_shr_ridge"
                    == some "2e-08") = true := by
                rw [hlookn, hmiw]; decide
              exact (buildFnName_mint_flip v P₁ P₂ A2 hnd2 hmiw hXme hXmi
                (by rw [hRq0, if_pos hcond]) (by rw [hRp0, if_neg hCp])).symm
            · exact absurd (by rw [hRp0, hRq0, if_neg hCp, if_neg hCq]) hR
        · exact absurd (removalList_congr
            (by rw [hlook2 v w "nonnegative" (fun he => hn1 he.symm)])
            (hlook2 v w "method" (fun he => hn2 he.symm))
            (hlook2 v w "mint_shr_ridge" (fun he => hn3 he.symm))) hR

/-- The pure-wiring parameters are always in the removal list. -/
theorem removalList_contains_wiring (ty : String) (p : List (String × String)) :
    (removalList ty p).contains "insample" = true ∧
    (removalList ty p).contains "num_threads" = true := by
  unfold removalList
  constructor <;> split <;> split <;> decide

/-! ### Concrete fixtures used by the claim theorems -/

/-- A concrete stand-in for the opaque normal quantile function. -/
def ppfOne : ℚ → ℚ := fun _ => 1

/-- A minimal parameterless reconciler accepting `level`. -/
def buRec : Reconciler := ⟨"BottomUp", [], false, false, false, true⟩

/-- A fixed algorithm behaviour for concrete runs. -/
def orcConst : Oracle :=
  fun _ _ _ => ⟨[5], [1, 2, 3, 4], fun k => (List.range k).map (fun i => (i : ℚ))⟩

/-- One series, one horizon step; model `A` forecasting 10.0 with a
`-hi-80` interval column at 12.0. -/
def frHi : Frame := ⟨["s1"],
  [("ds", ⟨false, [some 1]⟩), ("A", ⟨true, [some 10]⟩), ("A-hi-80", ⟨true, [some 12]⟩)]⟩

/-- Like `frHi` but with a `-lo-80` interval column at 8.0. -/
def frLo : Frame := ⟨["s1"],
  [("ds", ⟨false, [some 1]⟩), ("A", ⟨true, [some 10]⟩), ("A-lo-80", ⟨true, [some 8]⟩)]⟩

/-- A model named `flow` (the name contains the substring `lo`) with an
upper-bound interval column. -/
def frFlow : Frame := ⟨["s1"],
  [("ds", ⟨false, [some 1]⟩), ("flow", ⟨true, [some 10]⟩), ("flow-hi-80", ⟨true, [some 12]⟩)]⟩

/-- Model `A` with a column `A-lox2` that contains `-lo` but is not of the
`-lo-{level}` / `-hi-{level}` form. -/
def frLox : Frame := ⟨["s1"],
  [("ds", ⟨false, [some 1]⟩), ("A", ⟨true, [some 10]⟩), ("A-lox2", ⟨true, [some 12]⟩)]⟩

/-- Two models `A` and `B`; only `A` has an interval column. -/
def frAB : Frame := ⟨["s1"],
  [("ds", ⟨false, [some 1]⟩), ("A", ⟨true, [some 10]⟩),
   ("A-lo-80", ⟨true, [some 8]⟩), ("B", ⟨true, [some 20]⟩)]⟩

/-- A historical frame carrying `y` and fitted values for model `A`. -/
def ydfA : Frame := ⟨["s1"],
  [("ds", ⟨false, [some 1]⟩), ("y", ⟨true, [some 3]⟩), ("A", ⟨true, [some 9]⟩)]⟩

/-! ### Claim C1 — sigma derivation -/

/-- C1 (counterexample): the claim's sign rule fails on the code.  For the
model `flow` with point forecast 10.0 and upper-bound column
`flow-hi-80` at 12.0, the spec's sign for the `-hi-` column is `+1`, so
the claim predicts `+ (12 − 10) / z = 2 / z`; the source computes the sign
as `-1 if 'lo' in pi_col else 1`, the substring `lo` occurs inside
`flow`, and the derived sigma is `−(12 − 10) / z`.  Instantiating the
opaque quantile with the constant 1 exhibits the disagreement (`−2 ≠ 2`);
since `Φ⁻¹(0.9) > 0`, the two formulas disagree for the true quantile as
well. -/
theorem C1_counterexample :
    reverseEngineerSigmah ppfOne frFlow [10] "flow" = .ok [-2] ∧
    specSign "flow-hi-80" * ((12 : ℚ) - 10) / ppfOne (1/2 + 80/200) = 2 ∧
    ((-2 : ℚ) ≠ 2) := by
  refine ⟨?_, ?_, by norm_num⟩
  · have h1 : codePiCols frFlow "flow" = ["flow-hi-80"] := by decide
    have h2 : lastNum "flow-hi-80" = some 80 := by decide
    have h3 : Frame.colValsQ frFlow "flow-hi-80" = [12] := by decide
    have h4 : codeSign "flow-hi-80" = -1 := by
      simp only [codeSign, if_pos (show containsSub "lo" "flow-hi-80" = true by decide)]
    simp only [reverseEngineerSigmah, h1, h2, h3, h4, List.zipWith, ppfOne]
    norm_num
  · have h5 : specSign "flow-hi-80" = 1 := by
      simp only [specSign, if_neg (show ¬containsSub "-lo-" "flow-hi-80" = true by decide)]
    rw [h5]; norm_num [ppfOne]

/-- C1 (amended): when `_reverse_engineer_sigmah` locates an interval
column `c` for the model (the first non-dropped column containing `-lo`
or `-hi` and containing the model name) and the last numeric token of
`c` parses to `L`, the derived sigma is, elementwise,
`sign * (interval_value − point_forecast) / Φ⁻¹(0.5 + L/200)` — where
`sign` is `−1` whenever the column name contains the substring `lo`
anywhere (hence `−1` on every `-lo-` column, but also on a `-hi-` column
of a model whose name contains `lo`) and `+1` otherwise.  In particular,
for a point forecast of 10.0 and an `A-hi-80` value of 12.0 the sigma is
`2 / Φ⁻¹(0.9)`, and for an `A-lo-80` value of 8.0 it is identical in
magnitude and positive. -/
theorem C1_sigma_formula :
    (∀ (ppf : ℚ → ℚ) (f : Frame) (y : List ℚ) (m c : String) (rest : List String) (L : ℚ),
      codePiCols f m = c :: rest → lastNum c = some L →
      reverseEngineerSigmah ppf f y m =
        .ok ((f.colValsQ c).zipWith (fun v yv => codeSign c * (v - yv) / ppf (1/2 + L / 200)) y))
    ∧ (∀ ppf : ℚ → ℚ, reverseEngineerSigmah ppf frHi [10] "A" = .ok [2 / ppf (9/10)])
    ∧ (∀ ppf : ℚ → ℚ, reverseEngineerSigmah ppf frLo [10] "A" = .ok [2 / ppf (9/10)]) := by
  have hgen : ∀ (ppf : ℚ → ℚ) (f : Frame) (y : List ℚ) (m c : String) (rest : List String)
      (L : ℚ), codePiCols f m = c :: rest → lastNum c = some L →
      reverseEngineerSigmah ppf f y m =
        .ok ((f.colValsQ c).zipWith (fun v yv => codeSign c * (v - yv) / ppf (1/2 + L / 200)) y) := by
    intro ppf f y m c rest L h1 h2
    simp only [reverseEngineerSigmah, h1, h2]
  refine ⟨hgen, fun ppf => ?_, fun ppf => ?_⟩
  · have h := hgen ppf frHi [10] "A" "A-hi-80" [] 80 (by decide) (by decide)
    have h3 : Frame.colValsQ frHi "A-hi-80" = [12] := by decide
    have h4 : codeSign "A-hi-80" = 1 := by
      simp only [codeSign, if_neg (show ¬containsSub "lo" "A-hi-80" = true by decide)]
    rw [h, h3, h4]
    norm_num
  · have h := hgen ppf frLo [10] "A" "A-lo-80" [] 80 (by decide) (by decide)
    have h3 : Frame.colValsQ frLo "A-lo-80" = [8] := by decide
    have h4 : codeSign "A-lo-80" = -1 := by
      simp only [codeSign, if_pos (show containsSub "lo" "A-lo-80" = true by decide)]
    rw [h, h3, h4]
    norm_num

/-- C1 (witness): the general formula of `C1_sigma_formula` applied at the
concrete `-hi-80` fixture. -/
theorem C1_sigma_formula_witness :
    codePiCols frHi "A" = ["A-hi-80"] ∧ lastNum "A-hi-80" = some 80 ∧
    reverseEngineerSigmah ppfOne frHi [10] "A" =
      .ok ((frHi.colValsQ "A-hi-80").zipWith
        (fun v yv => codeSign "A-hi-80" * (v - yv) / ppfOne (1/2 + (80 : ℚ) / 200)) [10]) :=
  ⟨by decide, by decide,
    C1_sigma_formula.1 ppfOne frHi [10] "A" "A-hi-80" [] 80 (by decide) (by decide)⟩

/-! ### Claim C6 — missing-interval error -/

/-- C6 (counterexample): for model `A` the frame `frLox` has no
prediction-interval column in the spec's sense (no column matching `A`
and containing `-lo-` or `-hi-`), so the claim predicts a fatal error;
the source's filter only asks for the substring `-lo` or `-hi`, accepts
the column `A-lox2`, and the call succeeds. -/
theorem C6_counterexample :
    specHasPiCol frLox "A" = false ∧
    (reverseEngineerSigmah ppfOne frLox [10] "A").isOk = true := by
  exact ⟨by decide, by decide⟩

/-- C6 (amended): on the normality reverse-engineering path the fatal
missing-interval error is raised exactly when no non-dropped column of
the base-forecast frame both contains the model name and contains the
substring `-lo` or `-hi` (dashes only on the left, so a column such as
`A-lox2` counts as an interval column); the error message names the
missing model explicitly, no synthetic sigma fallback is used, and
otherwise the estimator uses the first such column in frame order. -/
theorem C6_missing_interval : ∀ (ppf : ℚ → ℚ) (f : Frame) (y : List ℚ) (m : String),
    (codePiCols f m = [] ↔ reverseEngineerSigmah ppf f y m = .error (piMsg m))
    ∧ containsSub m (piMsg m) = true
    ∧ (∀ c rest, codePiCols f m = c :: rest →
        reverseEngineerSigmah ppf f y m = (match lastNum c with
          | none => .error (parseMsg c)
          | some L => .ok ((f.colValsQ c).zipWith
              (fun v yv => codeSign c * (v - yv) / ppf (1/2 + L / 200)) y))) := by
  intro ppf f y m
  refine ⟨⟨fun h => by simp only [reverseEngineerSigmah, h], fun h => ?_⟩, ?_, ?_⟩
  · cases hc : codePiCols f m with
    | nil => rfl
    | cons c rest =>
      exfalso
      simp only [reverseEngineerSigmah, hc] at h
      cases hl : lastNum c with
      | none =>
        rw [hl] at h
        simp only [Except.error.injEq] at h
        revert h
        unfold parseMsg piMsg
        rw [show "could not parse a confidence level from `" ++ c ++ "`"
              = "could not parse a confidence level from `" ++ (c ++ "`") by
            rw [String.append_assoc],
          show "Please include `" ++ m ++ "` prediction intervals in `Y_hat_df`"
              = "Please include `" ++ (m ++ "` prediction intervals in `Y_hat_df`") by
            rw [String.append_assoc]]
        exact append_ne_of_head_ne 'c' 'P' (by decide) (by decide) (by decide)
      | some L => rw [hl] at h; exact Except.noConfusion h
  · have : piMsg m = "Please include `" ++ m ++ "` prediction intervals in `Y_hat_df`" := rfl
    rw [this]
    exact containsSub_middle _ _ _
  · intro c rest hc
    simp only [reverseEngineerSigmah, hc]

/-- C6 (witness): `C6_missing_interval` applied to the two-model fixture,
where model `B` has no interval column: the estimator fails with the
error naming `B`. -/
theorem C6_missing_interval_witness :
    codePiCols frAB "B" = [] ∧
    reverseEngineerSigmah ppfOne frAB [20] "B" = .error (piMsg "B") :=
  ⟨by decide, (C6_missing_interval ppfOne frAB [20] "B").1.mp (by decide)⟩

/-! ### Claim C5 — reconciler name resolution -/

/-- C5 (counterexample): a parameter still holding its documented default
can appear in the resolved name.  `mint_shr_ridge` at its default `2e-8`
(canonically rendered `2e-08`) is excluded only for a `MinTrace` with
`method == 'mint_shrink'` (third conjunct); with `method = 'ols'` the
very same default value is rendered into the name (first two conjuncts),
so "a parameter still holding its documented default value never appears
in the name" fails on the code. -/
theorem C5_counterexample :
    buildFnName "MinTrace"
      [("method", "ols"), ("nonnegative", "False"), ("mint_shr_ridge", "2e-08"),
       ("num_threads", "1"), ("insample", "False")]
      = "MinTrace_method-ols_mint_shr_ridge-2e-08" ∧
    containsSub "mint_shr_ridge-2e-08" "MinTrace_method-ols_mint_shr_ridge-2e-08" = true ∧
    buildFnName "MinTrace"
      [("method", "mint_shrink"), ("nonnegative", "False"), ("mint_shr_ridge", "2e-08"),
       ("num_threads", "1"), ("insample", "False")]
      = "MinTrace_method-mint_shrink" := by
  exact ⟨by decide, by decide, by decide⟩

/-- C5 (amended): the resolved name is the type name followed by
`name-value` tokens (joined by underscores) for exactly the stored
parameters outside the hardcoded removal set — the historical-values flag
`insample` and the thread count `num_threads` always (first conjunct),
`nonnegative` when falsy, and `mint_shr_ridge` when a `MinTrace` with
method `mint_shrink` holds it at its default `2e-8`; parameters at other
documented defaults still appear.  Two instances with the same type name
whose surviving parameters coincide resolve to the same name (second
conjunct, so differing wiring parameters do not affect the name), and
changing the stored value of one parameter that is kept in both
configurations — as any two non-default values are — changes the
resolved name (third conjunct). -/
theorem C5_name_resolver :
    (∀ (ty : String) (p : List (String × String)) (x : String × String),
      x ∈ keptParams ty p → x.1 ≠ "insample" ∧ x.1 ≠ "num_threads")
    ∧ (∀ (ty : String) (p q : List (String × String)),
      keptParams ty p = keptParams ty q → buildFnName ty p = buildFnName ty q)
    ∧ (∀ (ty n v w : String) (P₁ P₂ : List (String × String)),
      v ≠ w →
      ((P₁ ++ (n, v) :: P₂).map Prod.fst).Nodup →
      (removalList ty (P₁ ++ (n, v) :: P₂)).contains n = false →
      (removalList ty (P₁ ++ (n, w) :: P₂)).contains n = false →
      buildFnName ty (P₁ ++ (n, v) :: P₂) ≠ buildFnName ty (P₁ ++ (n, w) :: P₂)) := by
  refine ⟨?_, ?_, fun ty n v w P₁ P₂ => buildFnName_single_change ty n v w P₁ P₂⟩
  · intro ty p x hx
    rw [keptParams, List.mem_filter] at hx
    have h2 := hx.2
    constructor <;> intro he <;> rw [he] at h2
    · rw [(removalList_contains_wiring ty p).1] at h2
      exact absurd h2 (by decide)
    · rw [(removalList_contains_wiring ty p).2] at h2
      exact absurd h2 (by decide)
  · intro ty p q h
    unfold buildFnName
    rw [h]

/-- C5 (witness): `C5_name_resolver` at concrete instances — changing the
`method` of a `MinTrace` from `ols` to `wls` changes the resolved name. -/
theorem C5_name_resolver_witness :
    buildFnName "MinTrace" [("method", "ols"), ("nonnegative", "True")]
      ≠ buildFnName "MinTrace" [("method", "wls"), ("nonnegative", "True")] :=
  C5_name_resolver.2.2 "MinTrace" "method" "ols" "wls" [] [("nonnegative", "True")]
    (by decide) (by decide) (by decide) (by decide)

/-! ### Claim C3 — level domain check -/

/-- C3 (counterexample): `permbu` is a resampling-based strategy per the
spec's glossary, so the claim predicts no domain error under it; the
source checks `intervals_method in ['normality', 'permbu']` and raises
the domain error for level 100 under `permbu`. -/
theorem C3_counterexample :
    specResamplingBased "permbu" = true ∧
    prepareFit false frHi ["s1"] (some ydfA) (some [⟨100, "100"⟩]) "permbu" false
      = .error levelDomainMsg := by
  exact ⟨by decide, by decide⟩

/-- C3 (amended): on an input that passes every other validation (phrased
as: the same call with no level list succeeds), an explicitly requested
level list draws the domain error exactly when some level lies outside
`[0, 100)` and the strategy is `normality` or `permbu` — that is, the
check is skipped only for the plain `bootstrap` strategy, not for every
resampling-based one; otherwise the call returns the same validated
output. -/
theorem C3_domain_check : ∀ (insample : Bool) (Yh : Frame) (sIdx : List String)
    (Ydf : Option Frame) (ls : List PyNum) (m : String) (sortDf : Bool) (prep : PrepOut),
    prepareFit insample Yh sIdx Ydf none m sortDf = .ok prep →
    ((prepareFit insample Yh sIdx Ydf (some ls) m sortDf = .error levelDomainMsg)
      ↔ (ls.any (fun l => l.val < 0 || 100 ≤ l.val) = true ∧ (m = "normality" ∨ m = "permbu")))
    ∧ (¬(ls.any (fun l => l.val < 0 || 100 ≤ l.val) = true ∧ (m = "normality" ∨ m = "permbu")) →
        prepareFit insample Yh sIdx Ydf (some ls) m sortDf = .ok prep) := by
  intro insample Yh sIdx Ydf ls m sortDf prep hnone
  simp only [prepareFit, levelBad] at hnone ⊢
  by_cases h1 : (!(recognizedMethods.contains m)) = true
  · rw [if_pos h1] at hnone; exact absurd hnone (by simp)
  · rw [if_neg h1] at hnone ⊢
    by_cases h2 : ((insample || m == "bootstrap" || m == "permbu")
        && (if sortDf then Ydf.map (sortFrame sIdx) else Ydf).isNone) = true
    · rw [if_pos h2] at hnone; exact absurd hnone (by simp)
    · rw [if_neg h2] at hnone ⊢
      rw [if_neg (by simp)] at hnone
      by_cases h3 : (ls.any (fun l => l.val < 0 || 100 ≤ l.val)
          && (m == "normality" || m == "permbu")) = true
      · rw [if_pos h3]
        have hc : ls.any (fun l => l.val < 0 || 100 ≤ l.val) = true
            ∧ (m = "normality" ∨ m = "permbu") := by
          simpa [Bool.and_eq_true, Bool.or_eq_true, beq_iff_eq] using h3
        exact ⟨⟨fun _ => hc, fun _ => rfl⟩, fun hcond => absurd hc hcond⟩
      · rw [if_neg h3]
        have hc : ¬(ls.any (fun l => l.val < 0 || 100 ≤ l.val) = true
            ∧ (m = "normality" ∨ m = "permbu")) := by
          intro hcond
          refine h3 ?_
          simp only [Bool.and_eq_true, Bool.or_eq_true, beq_iff_eq]
          exact ⟨hcond.1, by rcases hcond.2 with h | h <;> simp [h]⟩
        refine ⟨⟨fun h => ?_, fun hcond => absurd hcond hc⟩, fun _ => hnone⟩
        rw [hnone] at h
        exact absurd h (by simp)

/-- C3 (witness): `C3_domain_check` at the one-series fixture under
`normality`: level 100 raises the domain error and level 99.9 passes
validation. -/
theorem C3_domain_check_witness :
    (prepareFit false frHi ["s1"] none (some [⟨100, "100"⟩]) "normality" false
      = .error levelDomainMsg)
    ∧ (prepareFit false frHi ["s1"] none (some [⟨(99.9 : ℚ), "99.9"⟩]) "normality" false
      = .ok ⟨frHi, ["s1"], none, ["A"]⟩) := by
  constructor
  · exact (C3_domain_check false frHi ["s1"] none [⟨100, "100"⟩] "normality" false
      ⟨frHi, ["s1"], none, ["A"]⟩ (by decide)).1.mpr
      ⟨by decide, Or.inl rfl⟩
  · refine (C3_domain_check false frHi ["s1"] none [⟨(99.9 : ℚ), "99.9"⟩] "normality" false
      ⟨frHi, ["s1"], none, ["A"]⟩ (by decide)).2 ?_
    rintro ⟨hany, -⟩
    simp only [List.any_cons, List.any_nil, Bool.or_false, Bool.or_eq_true] at hany
    rcases hany with h | h
    · rw [decide_eq_true_iff] at h
      norm_num at h
    · rw [decide_eq_true_iff] at h
      norm_num at h

/-! ### Error shapes of the dispatch loop -/

theorem reverseEngineerSigmah_error_shape {ppf : ℚ → ℚ} {f : Frame} {y : List ℚ}
    {m e : String} (h : reverseEngineerSigmah ppf f y m = .error e) :
    e = piMsg m ∨ ∃ c, e = parseMsg c := by
  cases hc : codePiCols f m with
  | nil =>
    simp only [reverseEngineerSigmah, hc, Except.error.injEq] at h
    exact Or.inl h.symm
  | cons c rest =>
    cases hl : lastNum c with
    | none =>
      simp only [reverseEngineerSigmah, hc, hl, Except.error.injEq] at h
      exact Or.inr ⟨c, h.symm⟩
    | some L =>
      simp only [reverseEngineerSigmah, hc, hl] at h
      exact Except.noConfusion h

theorem reconcileStep_error_shape {ppf : ℚ → ℚ} {oracle : Oracle} {sIns : Bool}
    {m : String} {ns : ℤ} {seed : ℕ} {Yh : Frame} {Yd : Option Frame}
    {p : (Reconciler × Reconciler) × String} {acc : LoopAcc} {e : String}
    (h : reconcileStep ppf oracle sIns m ns seed Yh Yd p acc = .error e) :
    (∃ mn, e = piMsg mn) ∨ (∃ c, e = parseMsg c) ∨ (∃ mn, e = "KeyError: " ++ mn) := by
  unfold reconcileStep at h
  by_cases hkey : ((sIns && p.1.1.hasFitted || m == "bootstrap" || m == "permbu")
      && !((Yd.map (fun d => d.colNames.contains p.2)).getD false)) = true
  · rw [if_pos hkey] at h
    simp only [Except.error.injEq] at h
    exact Or.inr (Or.inr ⟨p.2, h.symm⟩)
  · rw [if_neg hkey] at h
    cases hs : (if (p.1.1.hasLevel && acc.levelSt.isSome
          && (m == "normality" || m == "permbu")) = true then
        reverseEngineerSigmah ppf Yh (Yh.colValsQ p.2) p.2
      else Except.ok []) with
    | error e2 =>
      rw [hs] at h
      simp only [Except.error.injEq] at h
      subst h
      by_cases hcond : (p.1.1.hasLevel && acc.levelSt.isSome
          && (m == "normality" || m == "permbu")) = true
      · rw [if_pos hcond] at hs
        rcases reverseEngineerSigmah_error_shape hs with h1 | h1
        · exact Or.inl ⟨p.2, h1⟩
        · exact Or.inr (Or.inl h1)
      · rw [if_neg hcond] at hs
        exact Except.noConfusion hs
    | ok a =>
      rw [hs] at h
      simp only at h
      cases hlv : acc.levelSt with
      | none =>
        rw [hlv] at h
        exact Except.noConfusion h
      | some ls =>
        rw [hlv] at h
        simp only at h
        split at h
        · split at h <;> exact Except.noConfusion h
        · exact Except.noConfusion h

theorem loopGo_error_shape (ppf : ℚ → ℚ) (oracle : Oracle) (sIns : Bool) (m : String)
    (ns : ℤ) (seed : ℕ) (Yh : Frame) (Yd : Option Frame) :
    ∀ (pairs : List ((Reconciler × Reconciler) × String)) (acc : LoopAcc) (e : String),
    (loopGo ppf oracle sIns m ns seed Yh Yd pairs acc).2 = some e →
    (∃ mn, e = piMsg mn) ∨ (∃ c, e = parseMsg c) ∨ (∃ mn, e = "KeyError: " ++ mn) := by
  intro pairs
  induction pairs with
  | nil =>
    intro acc e h
    simp [loopGo] at h
  | cons p ps ih =>
    intro acc e h
    rw [loopGo] at h
    cases hs : reconcileStep ppf oracle sIns m ns seed Yh Yd p acc with
    | error e2 =>
      rw [hs] at h
      simp only [Option.some.injEq] at h
      subst h
      exact reconcileStep_error_shape hs
    | ok a =>
      rw [hs] at h
      exact ih a e h

/-! ### Frame and registry transition lemmas for the dispatch loop -/

theorem frameSetCol_index (f : Frame) (nm : String) (vals : List (Option ℚ)) :
    (frameSetCol f nm vals).index = f.index := by
  unfold frameSetCol
  split <;> rfl

theorem frameSetCol_colNames (f : Frame) (nm : String) (vals : List (Option ℚ)) :
    (frameSetCol f nm vals).colNames = f.colNames
    ∨ (frameSetCol f nm vals).colNames = f.colNames ++ [nm] := by
  unfold frameSetCol Frame.colNames
  split
  · left
    rw [List.map_map]
    refine List.map_congr_left (fun p _ => ?_)
    show (if (p.1 == nm) = true then (p.1, (⟨true, vals⟩ : ColData)) else p).1 = p.1
    split <;> rfl
  · right
    simp

theorem frameAppendCols_colNames (f : Frame) (extra : List (String × ColData)) :
    (frameAppendCols f extra).colNames = f.colNames ++ extra.map Prod.fst := by
  unfold frameAppendCols Frame.colNames
  simp

theorem reshapeCols_names (names : List String) (q : List ℚ) (n : ℕ) :
    (reshapeCols names q n).map Prod.fst = names := by
  unfold reshapeCols
  rw [List.map_map]
  have h : (Prod.fst ∘ fun jnm : ℕ × String => (jnm.2,
      (⟨true, (List.range n).map (fun i => some (q.getD (i * names.length + jnm.1) 0))⟩ : ColData)))
      = Prod.snd := by
    funext jnm
    rfl
  rw [h]
  exact List.enum_map_snd names

theorem dictInsert_mem_self {α : Type} (d : List (String × α)) (k : String) (v : α) :
    (k, v) ∈ dictInsert d k v := by
  unfold dictInsert
  split
  · rename_i hany
    rw [List.any_eq_true] at hany
    obtain ⟨p, hp, hpk⟩ := hany
    rw [List.mem_map]
    exact ⟨p, hp, by rw [if_pos hpk]⟩
  · simp

theorem dictInsert_mem_shape {α : Type} {d : List (String × α)} {k k' : String} {v v' : α}
    (h : (k', v') ∈ dictInsert d k v) : (k', v') ∈ d ∨ (k' = k ∧ v' = v) := by
  unfold dictInsert at h
  split at h
  · rw [List.mem_map] at h
    obtain ⟨p, hp, hpe⟩ := h
    by_cases hpk : (p.1 == k) = true
    · rw [if_pos hpk] at hpe
      right
      exact ⟨(congrArg Prod.fst hpe).symm, (congrArg Prod.snd hpe).symm⟩
    · rw [if_neg hpk] at hpe
      exact Or.inl (hpe ▸ hp)
  · rw [List.mem_append] at h
    rcases h with h | h
    · exact Or.inl h
    · right
      simp only [List.mem_singleton, Prod.mk.injEq] at h
      exact h

theorem dictInsert_mem_keep {α : Type} {d : List (String × α)} {k' : String} {v' : α}
    (k : String) (v : α) (h : (k', v') ∈ d) :
    ∃ v'', (k', v'') ∈ dictInsert d k v := by
  unfold dictInsert
  split
  · by_cases hpk : (k' == k) = true
    · refine ⟨v, ?_⟩
      rw [List.mem_map]
      exact ⟨(k', v'), h, by rw [if_pos hpk]; simp only [beq_iff_eq] at hpk; rw [hpk]⟩
    · refine ⟨v', ?_⟩
      rw [List.mem_map]
      exact ⟨(k', v'), h, by rw [if_neg hpk]⟩
  · exact ⟨v', by rw [List.mem_append]; exact Or.inl h⟩

theorem frameAppendCols_index (f : Frame) (extra : List (String × ColData)) :
    (frameAppendCols f extra).index = f.index := rfl

/-- Complete characterization of a successful dispatch-loop iteration:
the row index is unchanged, the iteration counter advances, the
execution-time entry for the pair's key is written, and the
frame/registry effects depend on the interval block's guard. -/
theorem reconcileStep_ok_cases {ppf : ℚ → ℚ} {oracle : Oracle} {sIns : Bool}
    {m : String} {ns : ℤ} {seed : ℕ} {Yh : Frame} {Yd : Option Frame}
    {p : (Reconciler × Reconciler) × String} {acc a : LoopAcc}
    (h : reconcileStep ppf oracle sIns m ns seed Yh Yd p acc = .ok a) :
    a.Yt.index = acc.Yt.index ∧ a.iter = acc.iter + 1
    ∧ a.times = dictInsert acc.times (stepKey p) acc.iter
    ∧ ((acc.levelSt = none ∧ a.levelSt = none ∧ a.levelNames = acc.levelNames
          ∧ a.sampleNames = acc.sampleNames
          ∧ (a.Yt.colNames = acc.Yt.colNames ∨ a.Yt.colNames = acc.Yt.colNames ++ [stepKey p]))
      ∨ (∃ ls, acc.levelSt = some ls ∧ recognizedMethods.contains m = false
          ∧ a.levelSt = acc.levelSt ∧ a.levelNames = acc.levelNames
          ∧ a.sampleNames = acc.sampleNames
          ∧ (a.Yt.colNames = acc.Yt.colNames ∨ a.Yt.colNames = acc.Yt.colNames ++ [stepKey p]))
      ∨ (∃ ls pre, acc.levelSt = some ls ∧ recognizedMethods.contains m = true
          ∧ a.levelSt = some (pySort ls)
          ∧ a.levelNames = dictInsert acc.levelNames (stepKey p)
              (loHiNames (stepKey p) (pySort ls))
          ∧ (pre = acc.Yt.colNames ∨ pre = acc.Yt.colNames ++ [stepKey p])
          ∧ ((0 < ns ∧ a.sampleNames = dictInsert acc.sampleNames (stepKey p)
                (sampleNamesOf (stepKey p) ns.toNat)
              ∧ a.Yt.colNames = pre ++ loHiNames (stepKey p) (pySort ls)
                  ++ sampleNamesOf (stepKey p) ns.toNat)
            ∨ (ns ≤ 0 ∧ a.sampleNames = acc.sampleNames
              ∧ a.Yt.colNames = pre ++ loHiNames (stepKey p) (pySort ls))))) := by
  unfold reconcileStep at h
  by_cases hkey : ((sIns && p.1.1.hasFitted || m == "bootstrap" || m == "permbu")
      && !((Yd.map (fun d => d.colNames.contains p.2)).getD false)) = true
  · rw [if_pos hkey] at h
    exact Except.noConfusion h
  · rw [if_neg hkey] at h
    cases hs : (if (p.1.1.hasLevel && acc.levelSt.isSome
          && (m == "normality" || m == "permbu")) = true then
        reverseEngineerSigmah ppf Yh (Yh.colValsQ p.2) p.2
      else Except.ok []) with
    | error e2 =>
      rw [hs] at h
      exact Except.noConfusion h
    | ok junk =>
      rw [hs] at h
      simp only at h
      cases hlv : acc.levelSt with
      | none =>
        rw [hlv] at h
        simp only at h
        have ha := Except.ok.inj h
        subst ha
        refine ⟨frameSetCol_index _ _ _, rfl, rfl, Or.inl ⟨rfl, rfl, rfl, rfl, ?_⟩⟩
        exact frameSetCol_colNames _ _ _
      | some ls =>
        rw [hlv] at h
        simp only at h
        by_cases hm : recognizedMethods.contains m = true
        · rw [if_pos hm] at h
          by_cases hns : ns > 0
          · rw [if_pos hns] at h
            have ha := Except.ok.inj h
            subst ha
            refine ⟨?_, rfl, rfl, Or.inr (Or.inr ⟨ls,
              (frameSetCol acc.Yt (stepKey p)
                ((oracle seed p.1.1 p.2).mean.map some)).colNames,
              rfl, hm, rfl, rfl, frameSetCol_colNames _ _ _,
              Or.inl ⟨hns, rfl, ?_⟩⟩)⟩
            · rw [frameAppendCols_index, frameAppendCols_index, frameSetCol_index]
            · rw [frameAppendCols_colNames, frameAppendCols_colNames,
                reshapeCols_names, reshapeCols_names]
          · rw [if_neg hns] at h
            have ha := Except.ok.inj h
            subst ha
            refine ⟨?_, rfl, rfl, Or.inr (Or.inr ⟨ls,
              (frameSetCol acc.Yt (stepKey p)
                ((oracle seed p.1.1 p.2).mean.map some)).colNames,
              rfl, hm, rfl, rfl, frameSetCol_colNames _ _ _,
              Or.inr ⟨by omega, rfl, ?_⟩⟩)⟩
            · rw [frameAppendCols_index, frameSetCol_index]
            · rw [frameAppendCols_colNames, reshapeCols_names]
        · rw [if_neg hm] at h
          have ha := Except.ok.inj h
          subst ha
          refine ⟨frameSetCol_index _ _ _, rfl, rfl, Or.inr (Or.inl ⟨ls, rfl,
            by rw [Bool.not_eq_true] at hm; exact hm, rfl, rfl, rfl, ?_⟩)⟩
          exact frameSetCol_colNames _ _ _

theorem infix_of_append {α : Type} {n L : List α} (ext : List α) (h : n <:+: L) :
    n <:+: L ++ ext :=
  h.trans (List.prefix_append L ext).isInfix

/-- The dispatch-loop invariant for a requested level list `l` under a
recognized strategy: the caller's list only moves between `l` and its
sorted permutation, the interval registry only ever holds the canonical
lo/hi name block for its key (laid down contiguously in the frame), the
sample registry only ever holds the canonical sample name block, columns
only grow, rows never change, registry keys are never dropped — and on a
fully successful run the list is sorted and every processed pair has its
entries. -/
theorem loopGo_level_invariants (ppf : ℚ → ℚ) (oracle : Oracle) (sIns : Bool)
    (m : String) (ns : ℤ) (seed : ℕ) (Yh : Frame) (Yd : Option Frame) (l : List PyNum)
    (hm : recognizedMethods.contains m = true) :
    ∀ (pairs : List ((Reconciler × Reconciler) × String)) (acc : LoopAcc)
      (res : LoopAcc × Option String),
    res = loopGo ppf oracle sIns m ns seed Yh Yd pairs acc →
    (acc.levelSt = some l ∨ acc.levelSt = some (pySort l)) →
    (∀ k names, (k, names) ∈ acc.levelNames → names = loHiNames k (pySort l)
      ∧ names <:+: acc.Yt.colNames) →
    (∀ k names, (k, names) ∈ acc.sampleNames → names = sampleNamesOf k ns.toNat
      ∧ names <:+: acc.Yt.colNames) →
    res.1.Yt.index = acc.Yt.index
    ∧ (∃ ext, res.1.Yt.colNames = acc.Yt.colNames ++ ext)
    ∧ (res.1.levelSt = acc.levelSt ∨ res.1.levelSt = some (pySort l))
    ∧ (∀ k names, (k, names) ∈ res.1.levelNames → names = loHiNames k (pySort l)
        ∧ names <:+: res.1.Yt.colNames)
    ∧ (∀ k names, (k, names) ∈ res.1.sampleNames → names = sampleNamesOf k ns.toNat
        ∧ names <:+: res.1.Yt.colNames)
    ∧ (res.2 = none → pairs ≠ [] → res.1.levelSt = some (pySort l))
    ∧ (res.2 = none → ∀ q, q ∈ pairs → (∃ names, (stepKey q, names) ∈ res.1.levelNames)
        ∧ (0 < ns → ∃ names, (stepKey q, names) ∈ res.1.sampleNames))
    ∧ (ns ≤ 0 → res.1.sampleNames = acc.sampleNames)
    ∧ (∀ k names, (k, names) ∈ acc.levelNames →
        ∃ names2, (k, names2) ∈ res.1.levelNames)
    ∧ (∀ k names, (k, names) ∈ acc.sampleNames →
        ∃ names2, (k, names2) ∈ res.1.sampleNames) := by
  intro pairs
  induction pairs with
  | nil =>
    intro acc res hres h1 h2 h3
    rw [loopGo] at hres
    subst hres
    refine ⟨rfl, ⟨[], by simp⟩, Or.inl rfl, h2, h3, fun _ hne => absurd rfl hne,
      fun _ q hq => absurd hq (List.not_mem_nil q), fun _ => rfl,
      fun k names hk => ⟨names, hk⟩, fun k names hk => ⟨names, hk⟩⟩
  | cons p ps ih =>
    intro acc res hres h1 h2 h3
    rw [loopGo] at hres
    cases hstep : reconcileStep ppf oracle sIns m ns seed Yh Yd p acc with
    | error e =>
      rw [hstep] at hres
      subst hres
      refine ⟨rfl, ⟨[], by simp⟩, Or.inl rfl, h2, h3,
        fun habs _ => Option.noConfusion habs,
        fun habs => absurd habs (by simp),
        fun _ => rfl, fun k names hk => ⟨names, hk⟩, fun k names hk => ⟨names, hk⟩⟩
    | ok a =>
      rw [hstep] at hres
      obtain ⟨hidx, hiter, htimes, hcases⟩ := reconcileStep_ok_cases hstep
      rcases hcases with ⟨hnone, -⟩ | ⟨ls, hls, hrec, -⟩ | ⟨ls, pre, hls, -, hlvlSt, hlN, hpre, hsams⟩
      · rcases h1 with h1 | h1 <;> rw [h1] at hnone <;> exact Option.noConfusion hnone
      · rw [hrec] at hm; exact Bool.noConfusion hm
      · have hsort : pySort ls = pySort l := by
          rcases h1 with h1 | h1 <;> rw [h1] at hls
          · rw [Option.some.inj hls]
          · rw [← Option.some.inj hls, pySort_idem]
        have hcolsa : ∃ ext0, a.Yt.colNames = acc.Yt.colNames ++ ext0 := by
          rcases hsams with ⟨-, -, hc⟩ | ⟨-, -, hc⟩ <;> rcases hpre with hp | hp <;>
            rw [hc, hp] <;> simp [List.append_assoc]
        have hsampNames : (0 < ns ∧ a.sampleNames = dictInsert acc.sampleNames (stepKey p)
              (sampleNamesOf (stepKey p) ns.toNat))
            ∨ (ns ≤ 0 ∧ a.sampleNames = acc.sampleNames) := by
          rcases hsams with ⟨hns, hsn, -⟩ | ⟨hns, hsn, -⟩
          · exact Or.inl ⟨hns, hsn⟩
          · exact Or.inr ⟨hns, hsn⟩
        have h1a : a.levelSt = some l ∨ a.levelSt = some (pySort l) :=
          Or.inr (by rw [hlvlSt, hsort])
        have h2a : ∀ k names, (k, names) ∈ a.levelNames → names = loHiNames k (pySort l)
            ∧ names <:+: a.Yt.colNames := by
          intro k names hk
          rw [hlN] at hk
          rcases dictInsert_mem_shape hk with hk | ⟨hkk, hkv⟩
          · obtain ⟨hf, hin⟩ := h2 k names hk
            obtain ⟨ext0, he0⟩ := hcolsa
            exact ⟨hf, by rw [he0]; exact infix_of_append ext0 hin⟩
          · subst hkk
            refine ⟨by rw [hkv, hsort], ?_⟩
            rw [hkv, hsort]
            rcases hsams with ⟨-, -, hc⟩ | ⟨-, -, hc⟩
            · rw [hc, hsort]
              exact ⟨pre, sampleNamesOf (stepKey p) ns.toNat, rfl⟩
            · rw [hc, hsort]
              exact ⟨pre, [], by simp⟩
        have h3a : ∀ k names, (k, names) ∈ a.sampleNames → names = sampleNamesOf k ns.toNat
            ∧ names <:+: a.Yt.colNames := by
          intro k names hk
          rcases hsampNames with ⟨hns, hsn⟩ | ⟨hns, hsn⟩
          · rw [hsn] at hk
            rcases dictInsert_mem_shape hk with hk | ⟨hkk, hkv⟩
            · obtain ⟨hf, hin⟩ := h3 k names hk
              obtain ⟨ext0, he0⟩ := hcolsa
              exact ⟨hf, by rw [he0]; exact infix_of_append ext0 hin⟩
            · subst hkk
              refine ⟨hkv, ?_⟩
              rw [hkv]
              rcases hsams with ⟨-, -, hc⟩ | ⟨hns2, -, -⟩
              · rw [hc]
                exact ⟨pre ++ loHiNames (stepKey p) (pySort ls), [], by simp⟩
              · omega
          · rw [hsn] at hk
            obtain ⟨hf, hin⟩ := h3 k names hk
            obtain ⟨ext0, he0⟩ := hcolsa
            exact ⟨hf, by rw [he0]; exact infix_of_append ext0 hin⟩
        obtain ⟨ihidx, ⟨ext1, ihcols⟩, ihlvl, ihreg, ihsreg, ihsorted, ihmem, ihns,
          ihkeepL, ihkeepS⟩ := ih a res hres h1a h2a h3a
        obtain ⟨ext0, he0⟩ := hcolsa
        refine ⟨by rw [ihidx, hidx], ⟨ext0 ++ ext1, by rw [ihcols, he0, List.append_assoc]⟩,
          ?_, ihreg, ihsreg, ?_, ?_, ?_, ?_, ?_⟩
        · rcases ihlvl with hL | hL
          · exact Or.inr (by rw [hL, hlvlSt, hsort])
          · exact Or.inr hL
        · intro hnone2 _
          rcases ihlvl with hL | hL
          · rw [hL, hlvlSt, hsort]
          · exact hL
        · intro hnone2 q hq
          rcases List.mem_cons.mp hq with hq | hq
          · subst hq
            constructor
            · exact ihkeepL (stepKey q) (loHiNames (stepKey q) (pySort ls))
                (by rw [hlN]; exact dictInsert_mem_self _ _ _)
            · intro hns
              rcases hsampNames with ⟨-, hsn⟩ | ⟨hns2, -⟩
              · exact ihkeepS (stepKey q) (sampleNamesOf (stepKey q) ns.toNat)
                  (by rw [hsn]; exact dictInsert_mem_self _ _ _)
              · omega
          · exact ihmem hnone2 q hq
        · intro hns
          rcases hsampNames with ⟨hns2, -⟩ | ⟨-, hsn⟩
          · omega
          · rw [ihns hns, hsn]
        · intro k names hk
          obtain ⟨v2, h2m⟩ := dictInsert_mem_keep (stepKey p)
            (loHiNames (stepKey p) (pySort ls)) hk
          exact ihkeepL k v2 (by rw [hlN]; exact h2m)
        · intro k names hk
          rcases hsampNames with ⟨-, hsn⟩ | ⟨-, hsn⟩
          · obtain ⟨v2, h2m⟩ := dictInsert_mem_keep (stepKey p)
              (sampleNamesOf (stepKey p) ns.toNat) hk
            exact ihkeepS k v2 (by rw [hsn]; exact h2m)
          · exact ihkeepS k names (by rw [hsn]; exact hk)

/-- A successful `_prepare_fit` implies the strategy was recognized (the
configuration check is the first one in the chain). -/
theorem prepareFit_ok_method {ins : Bool} {Yh : Frame} {sIdx : List String}
    {Yd : Option Frame} {lvl : Option (List PyNum)} {m : String} {sd : Bool}
    {prep : PrepOut} (h : prepareFit ins Yh sIdx Yd lvl m sd = .ok prep) :
    recognizedMethods.contains m = true := by
  by_cases hm : recognizedMethods.contains m = true
  · exact hm
  · rw [Bool.not_eq_true] at hm
    unfold prepareFit at h
    rw [hm] at h
    simp only [Bool.not_false, if_true] at h
    exact Except.noConfusion h

/-- The reconciler × model product of the dispatch loop is nonempty when
both factors are. -/
theorem zip_flatMap_ne_nil {α β : Type} {l : List α} {ms : List β}
    (h1 : l ≠ []) (h2 : ms ≠ []) :
    ((l.zip l).flatMap (fun rp => ms.map (fun mo => (rp, mo)))) ≠ [] := by
  cases l with
  | nil => exact absurd rfl h1
  | cons a as =>
    cases ms with
    | nil => exact absurd rfl h2
    | cons b bs => simp

/-- Unfolding of `reconcile` past a successful `_prepare_fit`: the
returned structure in terms of the dispatch-loop result. -/
theorem reconcileMethod_eq_of_prep (ppf : ℚ → ℚ) (oracle : Oracle) (st : HRState)
    (Yh : Frame) (sIdx : List String) (Yd : Option Frame) (lvl : Option (List PyNum))
    (m : String) (ns : ℤ) (seed : ℕ) (sd : Bool) (prep : PrepOut)
    (hprep : prepareFit st.insample Yh sIdx Yd lvl m sd = .ok prep)
    (res : LoopAcc × Option String)
    (hres : res = loopGo ppf oracle st.insample m ns seed prep.Y_hat prep.Y_df
      ((st.reconcilers.zip st.origReconcilers).flatMap
        (fun rp => prep.modelNames.map (fun mo => (rp, mo))))
      ⟨prep.Y_hat, [], [], [], lvl, 0⟩) :
    reconcileMethod ppf oracle st Yh sIdx Yd lvl m ns seed sd =
      ⟨{ st with
          modelNames := some prep.modelNames
          executionTimes := some res.1.times
          levelNames := some res.1.levelNames
          sampleNames := some res.1.sampleNames },
        res.1.levelSt,
        match res.2 with
        | some e => .error e
        | none => .ok res.1.Yt⟩ := by
  unfold reconcileMethod
  rw [hprep]
  dsimp only
  rw [← hres]
  cases res.2 with
  | none => rfl
  | some e => rfl

/-- The dispatch-loop invariant with no requested level list: the list
stays absent, the interval and sample registries are untouched, rows never
change, and the only columns ever added are the `{model}/{algorithm}` mean
columns of the processed pairs. -/
theorem loopGo_none_invariants (ppf : ℚ → ℚ) (oracle : Oracle) (sIns : Bool)
    (m : String) (ns : ℤ) (seed : ℕ) (Yh : Frame) (Yd : Option Frame) :
    ∀ (pairs : List ((Reconciler × Reconciler) × String)) (acc : LoopAcc)
      (res : LoopAcc × Option String),
    res = loopGo ppf oracle sIns m ns seed Yh Yd pairs acc →
    acc.levelSt = none →
    res.1.levelSt = none
    ∧ res.1.levelNames = acc.levelNames
    ∧ res.1.sampleNames = acc.sampleNames
    ∧ res.1.Yt.index = acc.Yt.index
    ∧ ∃ ext, res.1.Yt.colNames = acc.Yt.colNames ++ ext
        ∧ ∀ c, c ∈ ext → ∃ q, q ∈ pairs ∧ c = stepKey q := by
  intro pairs
  induction pairs with
  | nil =>
    intro acc res hres hnone
    rw [loopGo] at hres
    subst hres
    exact ⟨hnone, rfl, rfl, rfl,
      ⟨[], by simp, fun c hc => absurd hc (List.not_mem_nil c)⟩⟩
  | cons p ps ih =>
    intro acc res hres hnone
    rw [loopGo] at hres
    cases hstep : reconcileStep ppf oracle sIns m ns seed Yh Yd p acc with
    | error e =>
      rw [hstep] at hres
      subst hres
      exact ⟨hnone, rfl, rfl, rfl,
        ⟨[], by simp, fun c hc => absurd hc (List.not_mem_nil c)⟩⟩
    | ok a =>
      rw [hstep] at hres
      obtain ⟨hidx, -, -, hcases⟩ := reconcileStep_ok_cases hstep
      rcases hcases with ⟨-, hlv, hlN, hsN, hcols⟩ | ⟨ls, hls, -⟩ | ⟨ls, pre, hls, -⟩
      · obtain ⟨hlv2, hlN2, hsN2, hidx2, ext, hcols2, hext⟩ := ih a res hres hlv
        refine ⟨hlv2, hlN2.trans hlN, hsN2.trans hsN, hidx2.trans hidx, ?_⟩
        rcases hcols with hc | hc
        · refine ⟨ext, by rw [hcols2, hc], fun c hc2 => ?_⟩
          obtain ⟨q, hq1, hq2⟩ := hext c hc2
          exact ⟨q, List.mem_cons_of_mem p hq1, hq2⟩
        · refine ⟨stepKey p :: ext,
            by rw [hcols2, hc, List.append_assoc, List.singleton_append], fun c hc2 => ?_⟩
          rcases List.mem_cons.mp hc2 with hc3 | hc3
          · exact ⟨p, List.mem_cons_self p ps, hc3⟩
          · obtain ⟨q, hq1, hq2⟩ := hext c hc3
            exact ⟨q, List.mem_cons_of_mem p hq1, hq2⟩
      · rw [hnone] at hls
        exact Option.noConfusion hls
      · rw [hnone] at hls
        exact Option.noConfusion hls

/-- The positional rename `df.columns = names` succeeds exactly on a
column-count match: the existing names and their order are never
inspected. -/
theorem frameRename_isOk_iff (names : List String) (f : Frame) :
    (∃ g, frameRename names f = .ok g) ↔ names.length = f.cols.length := by
  unfold frameRename
  constructor
  · intro hg
    obtain ⟨g, hg⟩ := hg
    by_cases h : names.length = f.cols.length
    · exact h
    · rw [if_neg h] at hg
      exact Except.noConfusion hg
  · intro h
    rw [if_pos h]
    exact ⟨_, rfl⟩

/-- A successful positional rename installs exactly the given names. -/
theorem frameRename_colNames {names : List String} {f g : Frame}
    (h : frameRename names f = .ok g) : g.colNames = names := by
  unfold frameRename at h
  by_cases hl : names.length = f.cols.length
  · rw [if_pos hl] at h
    have hgg := Except.ok.inj h
    subst hgg
    show (names.zip (f.cols.map Prod.snd)).map Prod.fst = names
    exact List.map_fst_zip _ _ (le_of_eq (by simp [hl]))
  · rw [if_neg hl] at h
    exact Except.noConfusion h

/-- One unfolding of the per-seed bootstrap loop, with the let bindings
expanded. -/
theorem bootstrapGo_cons (ppf : ℚ → ℚ) (oracle : Oracle) (Yh : Frame)
    (sIdx : List String) (Yd : Option Frame) (m : String) (ns : ℤ) (s : ℕ)
    (ss : List ℕ) (st : HRState) (lvl : Option (List PyNum))
    (fcol : Option (List String)) (accF : List Frame) :
    bootstrapGo ppf oracle Yh sIdx Yd m ns (s :: ss) st lvl fcol accF =
      (match (reconcileMethod ppf oracle st Yh sIdx Yd lvl m ns s false).result with
       | .error e => ((reconcileMethod ppf oracle st Yh sIdx Yd lvl m ns s
           false).state, .error e)
       | .ok f =>
         match frameRename
             (if s = 0 then
               (frameSetCol f "seed" ((List.range f.index.length).map
                 (fun _ => some (s : ℚ)))).colNames
             else fcol.getD (frameSetCol f "seed" ((List.range f.index.length).map
                 (fun _ => some (s : ℚ)))).colNames)
             (frameSetCol f "seed" ((List.range f.index.length).map
               (fun _ => some (s : ℚ)))) with
         | .error e => ((reconcileMethod ppf oracle st Yh sIdx Yd lvl m ns s
             false).state, .error e)
         | .ok f2 =>
           bootstrapGo ppf oracle Yh sIdx Yd m ns ss
             (reconcileMethod ppf oracle st Yh sIdx Yd lvl m ns s false).state
             (reconcileMethod ppf oracle st Yh sIdx Yd lvl m ns s false).levelFinal
             (some (if s = 0 then
               (frameSetCol f "seed" ((List.range f.index.length).map
                 (fun _ => some (s : ℚ)))).colNames
             else fcol.getD (frameSetCol f "seed" ((List.range f.index.length).map
                 (fun _ => some (s : ℚ)))).colNames))
             (accF ++ [f2])) := by
  cases hr : (reconcileMethod ppf oracle st Yh sIdx Yd lvl m ns s false).result with
  | error e =>
    show bootstrapGo ppf oracle Yh sIdx Yd m ns (s :: ss) st lvl fcol accF = _
    rw [bootstrapGo, hr]
  | ok f =>
    rw [bootstrapGo, hr]

/-- The per-seed bootstrap loop past the first seed: with the first
seed's layout already recorded, a successful run appends exactly one
frame per remaining seed, produced by running the full pipeline at that
seed, appending the constant `seed` column and renaming positionally to
the recorded layout. -/
theorem bootstrapGo_tail (ppf : ℚ → ℚ) (oracle : Oracle) (Yh : Frame)
    (sIdx : List String) (Yd : Option Frame) (m : String) (ns : ℤ) :
    ∀ (k : ℕ) (s0 : ℕ) (st : HRState) (lvl : Option (List PyNum)) (c : List String)
      (accF : List Frame) (st2 : HRState) (frames : List Frame),
    bootstrapGo ppf oracle Yh sIdx Yd m ns (List.range' s0 k) st lvl (some c) accF
      = (st2, .ok frames) →
    0 < s0 →
    ∃ new, frames = accF ++ new ∧ new.length = k
      ∧ ∀ j, j < k → ∃ stJ lvlJ fJ,
          (reconcileMethod ppf oracle stJ Yh sIdx Yd lvlJ m ns (s0 + j) false).result
            = .ok fJ
          ∧ frameRename c (frameSetCol fJ "seed" ((List.range fJ.index.length).map
              (fun _ => some ((s0 + j : ℕ) : ℚ)))) = .ok (new.getD j ⟨[], []⟩)
          ∧ (new.getD j ⟨[], []⟩).colNames = c := by
  intro k
  induction k with
  | zero =>
    intro s0 st lvl c accF st2 frames h hs0
    have hnil : List.range' s0 0 = [] := rfl
    rw [hnil, bootstrapGo] at h
    have h3 := Except.ok.inj (show Except.ok accF = Except.ok frames from
      congrArg Prod.snd h)
    exact ⟨[], by rw [List.append_nil]; exact h3.symm, rfl,
      fun j hj => absurd hj (Nat.not_lt_zero j)⟩
  | succ k ih =>
    intro s0 st lvl c accF st2 frames h hs0
    have hcons : List.range' s0 (k + 1) = s0 :: List.range' (s0 + 1) k := rfl
    rw [hcons, bootstrapGo_cons] at h
    have hs0ne : ¬(s0 = 0) := Nat.pos_iff_ne_zero.mp hs0
    cases hr : (reconcileMethod ppf oracle st Yh sIdx Yd lvl m ns s0 false).result with
    | error e =>
      rw [hr] at h
      exact Except.noConfusion (show (Except.error e : Except String (List Frame))
        = Except.ok frames from congrArg Prod.snd h)
    | ok f =>
      rw [hr] at h
      dsimp only at h
      rw [if_neg hs0ne, Option.getD_some] at h
      cases hren : frameRename c (frameSetCol f "seed" ((List.range f.index.length).map
          (fun _ => some ((s0 : ℕ) : ℚ)))) with
      | error e =>
        rw [hren] at h
        exact Except.noConfusion (show (Except.error e : Except String (List Frame))
          = Except.ok frames from congrArg Prod.snd h)
      | ok f2 =>
        rw [hren] at h
        dsimp only at h
        obtain ⟨new', hfr, hlen, hprops⟩ := ih (s0 + 1)
          (reconcileMethod ppf oracle st Yh sIdx Yd lvl m ns s0 false).state
          (reconcileMethod ppf oracle st Yh sIdx Yd lvl m ns s0 false).levelFinal
          c (accF ++ [f2]) st2 frames h (Nat.succ_pos s0)
        refine ⟨f2 :: new', ?_, by rw [List.length_cons, hlen], ?_⟩
        · rw [hfr, List.append_assoc, List.singleton_append]
        · intro j hj
          cases j with
          | zero =>
            refine ⟨st, lvl, f, ?_, ?_, frameRename_colNames hren⟩
            · rw [Nat.add_zero]
              exact hr
            · rw [Nat.add_zero]
              exact hren
          | succ j2 =>
            have hj2 : j2 < k := Nat.lt_of_succ_lt_succ hj
            obtain ⟨stJ, lvlJ, fJ, hres1, hres2, hres3⟩ := hprops j2 hj2
            have hseed : s0 + (j2 + 1) = (s0 + 1) + j2 := by omega
            refine ⟨stJ, lvlJ, fJ, ?_, ?_, hres3⟩
            · rw [hseed]
              exact hres1
            · rw [hseed]
              exact hres2

/-! ### Claim C2 — validation atomicity -/

/-- C2 (counterexample): the missing-interval error of the spec's
taxonomy is not raised during Alignment & Validation.  With models `A`
(with an interval column) and `B` (without), a `normality` run with a
requested level processes `A` completely and only then fails on `B`
inside the dispatch loop — at which point the instance has already
recorded an execution time for `A/BottomUp`, so the call does not fail
atomically with no partial output. -/
theorem C2_counterexample :
    (reconcileMethod ppfOne orcConst (HRInit [buRec]) frAB ["s1"] none
      (some [⟨80, "80"⟩]) "normality" (-1) 0 false).result = .error (piMsg "B") ∧
    (reconcileMethod ppfOne orcConst (HRInit [buRec]) frAB ["s1"] none
      (some [⟨80, "80"⟩]) "normality" (-1) 0 false).state.executionTimes
      = some [("A/BottomUp", 0)] := by
  exact ⟨by decide, by decide⟩

/-- C2 (amended): every validation error raised by `_prepare_fit`
(configuration, missing-input, domain, schema and alignment errors)
propagates before any algorithm is invoked and leaves the instance state
untouched — the call fails atomically with no output columns and no
execution times (first conjunct); but the missing-interval error (and the
level-parse failure on a malformed interval column name, and a missing
per-model fitted column in the historical frame) surfaces inside the
dispatch loop, after execution times and registries for earlier
(model, algorithm) pairs may already have been recorded: any error after
successful validation is of one of those three shapes (second
conjunct). -/
theorem C2_error_atomicity :
    (∀ (ppf : ℚ → ℚ) (oracle : Oracle) (st : HRState) (Yh : Frame) (sIdx : List String)
      (Yd : Option Frame) (lvl : Option (List PyNum)) (m : String) (ns : ℤ) (seed : ℕ)
      (sd : Bool) (e : String),
      prepareFit st.insample Yh sIdx Yd lvl m sd = .error e →
      reconcileMethod ppf oracle st Yh sIdx Yd lvl m ns seed sd = ⟨st, lvl, .error e⟩)
    ∧ (∀ (ppf : ℚ → ℚ) (oracle : Oracle) (st : HRState) (Yh : Frame) (sIdx : List String)
      (Yd : Option Frame) (lvl : Option (List PyNum)) (m : String) (ns : ℤ) (seed : ℕ)
      (sd : Bool) (prep : PrepOut) (e : String),
      prepareFit st.insample Yh sIdx Yd lvl m sd = .ok prep →
      (reconcileMethod ppf oracle st Yh sIdx Yd lvl m ns seed sd).result = .error e →
      (∃ mn, e = piMsg mn) ∨ (∃ c, e = parseMsg c) ∨ (∃ mn, e = "KeyError: " ++ mn)) := by
  constructor
  · intro ppf oracle st Yh sIdx Yd lvl m ns seed sd e h
    unfold reconcileMethod
    rw [h]
  · intro ppf oracle st Yh sIdx Yd lvl m ns seed sd prep e hprep hres
    unfold reconcileMethod at hres
    rw [hprep] at hres
    simp only at hres
    cases hl : (loopGo ppf oracle st.insample m ns seed prep.Y_hat prep.Y_df
        ((st.reconcilers.zip st.origReconcilers).flatMap
          (fun rp => prep.modelNames.map (fun mo => (rp, mo))))
        ⟨prep.Y_hat, [], [], [], lvl, 0⟩).2 with
    | none =>
      rw [hl] at hres
      exact Except.noConfusion hres
    | some e2 =>
      rw [hl] at hres
      simp only [Except.error.injEq] at hres
      subst hres
      exact loopGo_error_shape ppf oracle st.insample m ns seed prep.Y_hat prep.Y_df _ _ e2 hl

/-- C2 (witness): `C2_error_atomicity` applied to a call with an unknown
interval-estimation strategy: the configuration error propagates with the
instance state untouched. -/
theorem C2_error_atomicity_witness :
    reconcileMethod ppfOne orcConst (HRInit [buRec]) frHi ["s1"] none none "weird"
      (-1) 0 false = ⟨HRInit [buRec], none, .error (unknownMethodMsg "weird")⟩ :=
  C2_error_atomicity.1 ppfOne orcConst (HRInit [buRec]) frHi ["s1"] none none "weird"
    (-1) 0 false (unknownMethodMsg "weird") (by decide)

/-! ### Claim C10 — in-place sorting of the caller's level list -/

/-- C10: whenever `reconcile` runs to completion with a requested level
list under a recognized interval-estimation strategy (with at least one
reconciler and one model, so the dispatch loop runs at least once), the
caller's `level` list object is mutated in place by `level.sort()`: the
list the caller holds after the call is `pySort l`, an ascending-sorted
permutation of the requested contents `l`. -/
theorem C10_level_sorted_in_place (ppf : ℚ → ℚ) (oracle : Oracle)
    (recs : List Reconciler) (Yh : Frame) (sIdx : List String) (Yd : Option Frame)
    (l : List PyNum) (m : String) (ns : ℤ) (seed : ℕ) (sd : Bool) (prep : PrepOut)
    (hprep : prepareFit (HRInit recs).insample Yh sIdx Yd (some l) m sd = .ok prep)
    (hrecs : recs ≠ []) (hmods : prep.modelNames ≠ [])
    (hok : (reconcileMethod ppf oracle (HRInit recs) Yh sIdx Yd (some l) m ns
      seed sd).result.isOk = true) :
    (reconcileMethod ppf oracle (HRInit recs) Yh sIdx Yd (some l) m ns
      seed sd).levelFinal = some (pySort l)
    ∧ List.Sorted (fun a b : PyNum => a.val ≤ b.val) (pySort l)
    ∧ (pySort l).Perm l := by
  have hm := prepareFit_ok_method hprep
  set pairs := ((HRInit recs).reconcilers.zip (HRInit recs).origReconcilers).flatMap
    (fun rp => prep.modelNames.map (fun mo => (rp, mo))) with hpairs
  set res := loopGo ppf oracle (HRInit recs).insample m ns seed prep.Y_hat prep.Y_df
    pairs ⟨prep.Y_hat, [], [], [], some l, 0⟩ with hresdef
  have heq := reconcileMethod_eq_of_prep ppf oracle (HRInit recs) Yh sIdx Yd (some l)
    m ns seed sd prep hprep res hresdef
  have hinv := loopGo_level_invariants ppf oracle (HRInit recs).insample m ns seed
    prep.Y_hat prep.Y_df l hm pairs ⟨prep.Y_hat, [], [], [], some l, 0⟩ res hresdef
    (Or.inl rfl) (fun k names hk => absurd hk (List.not_mem_nil _))
    (fun k names hk => absurd hk (List.not_mem_nil _))
  obtain ⟨-, -, -, -, -, hfin, -, -, -, -⟩ := hinv
  have hok2 : (match res.2 with
      | some e => (Except.error e : Except String Frame)
      | none => Except.ok res.1.Yt).isOk = true := by
    rw [heq] at hok
    exact hok
  have hr2 : res.2 = none := by
    cases hx : res.2 with
    | none => rfl
    | some e =>
      rw [hx] at hok2
      exact Bool.noConfusion (show false = true from hok2)
  have hpne : pairs ≠ [] := by
    rw [hpairs]
    exact zip_flatMap_ne_nil hrecs hmods
  have h1 : (reconcileMethod ppf oracle (HRInit recs) Yh sIdx Yd (some l) m ns
      seed sd).levelFinal = res.1.levelSt := by rw [heq]
  exact ⟨h1.trans (hfin hr2 hpne), pySort_sorted l, pySort_perm l⟩

/-- C10 (witness): a concrete `normality` run with the unsorted level
list `[95, 80]` leaves the caller's list sorted ascending. -/
theorem C10_level_sorted_in_place_witness :
    (reconcileMethod ppfOne orcConst (HRInit [buRec]) frHi ["s1"] none
      (some [⟨95, "95"⟩, ⟨80, "80"⟩]) "normality" (-1) 0 false).levelFinal
      = some (pySort [⟨95, "95"⟩, ⟨80, "80"⟩])
    ∧ List.Sorted (fun a b : PyNum => a.val ≤ b.val)
        (pySort [⟨95, "95"⟩, ⟨80, "80"⟩])
    ∧ (pySort [⟨95, "95"⟩, ⟨80, "80"⟩]).Perm [⟨95, "95"⟩, ⟨80, "80"⟩] :=
  C10_level_sorted_in_place ppfOne orcConst [buRec] frHi ["s1"] none
    [⟨95, "95"⟩, ⟨80, "80"⟩] "normality" (-1) 0 false ⟨frHi, ["s1"], none, ["A"]⟩
    (by decide) (by decide) (by decide) (by decide)

/-! ### Claim C4 — interval column naming and order -/

/-- C4: on a completed run with a requested level list, every
`{model}/{algorithm}` pair has an entry in the interval-column registry,
every entry is the canonical block `loHiNames key (pySort l)` — the
`-lo-` names for the sorted levels in descending order followed by the
`-hi-` names in ascending order — and the block appears contiguously in
the output frame; for requested levels `[80, 95]` the block is exactly
`-lo-95, -lo-80, -hi-80, -hi-95`. -/
theorem C4_interval_column_blocks (ppf : ℚ → ℚ) (oracle : Oracle)
    (recs : List Reconciler) (Yh : Frame) (sIdx : List String) (Yd : Option Frame)
    (l : List PyNum) (m : String) (ns : ℤ) (seed : ℕ) (sd : Bool) (prep : PrepOut)
    (hprep : prepareFit (HRInit recs).insample Yh sIdx Yd (some l) m sd = .ok prep)
    (hok : (reconcileMethod ppf oracle (HRInit recs) Yh sIdx Yd (some l) m ns
      seed sd).result.isOk = true) :
    ∃ reg f,
      (reconcileMethod ppf oracle (HRInit recs) Yh sIdx Yd (some l) m ns
        seed sd).result = .ok f
      ∧ (reconcileMethod ppf oracle (HRInit recs) Yh sIdx Yd (some l) m ns
          seed sd).state.levelNames = some reg
      ∧ (∀ k names, (k, names) ∈ reg →
          names = loHiNames k (pySort l) ∧ names <:+: f.colNames)
      ∧ (∀ rp, rp ∈ recs.zip recs → ∀ mo, mo ∈ prep.modelNames →
          ∃ names, (mo ++ "/" ++ buildFnName rp.2.tyName rp.2.params, names) ∈ reg)
      ∧ (∀ key : String, loHiNames key [⟨80, "80"⟩, ⟨95, "95"⟩]
          = [key ++ "-lo-95", key ++ "-lo-80", key ++ "-hi-80", key ++ "-hi-95"]) := by
  have hm := prepareFit_ok_method hprep
  set pairs := ((HRInit recs).reconcilers.zip (HRInit recs).origReconcilers).flatMap
    (fun rp => prep.modelNames.map (fun mo => (rp, mo))) with hpairs
  set res := loopGo ppf oracle (HRInit recs).insample m ns seed prep.Y_hat prep.Y_df
    pairs ⟨prep.Y_hat, [], [], [], some l, 0⟩ with hresdef
  have heq := reconcileMethod_eq_of_prep ppf oracle (HRInit recs) Yh sIdx Yd (some l)
    m ns seed sd prep hprep res hresdef
  have hinv := loopGo_level_invariants ppf oracle (HRInit recs).insample m ns seed
    prep.Y_hat prep.Y_df l hm pairs ⟨prep.Y_hat, [], [], [], some l, 0⟩ res hresdef
    (Or.inl rfl) (fun k names hk => absurd hk (List.not_mem_nil _))
    (fun k names hk => absurd hk (List.not_mem_nil _))
  obtain ⟨-, -, -, hlN, -, -, hall, -, -, -⟩ := hinv
  have hok2 : (match res.2 with
      | some e => (Except.error e : Except String Frame)
      | none => Except.ok res.1.Yt).isOk = true := by
    rw [heq] at hok
    exact hok
  have hr2 : res.2 = none := by
    cases hx : res.2 with
    | none => rfl
    | some e =>
      rw [hx] at hok2
      exact Bool.noConfusion (show false = true from hok2)
  refine ⟨res.1.levelNames, res.1.Yt, ?_, ?_, hlN, ?_, ?_⟩
  · rw [heq, hr2]
  · rw [heq]
  · intro rp hrp mo hmo
    have hqmem : ((rp, mo) : (Reconciler × Reconciler) × String) ∈ pairs := by
      rw [hpairs]
      exact List.mem_flatMap.mpr ⟨rp, hrp, List.mem_map.mpr ⟨mo, hmo, rfl⟩⟩
    exact (hall hr2 (rp, mo) hqmem).1
  · intro key
    have hassoc : ∀ a b : String, key ++ a ++ b = key ++ (a ++ b) :=
      fun a b => String.append_assoc key a b
    show [key ++ "-lo-" ++ "95", key ++ "-lo-" ++ "80",
          key ++ "-hi-" ++ "80", key ++ "-hi-" ++ "95"] = _
    rw [hassoc, hassoc, hassoc, hassoc]
    rfl

/-- C4 (witness): a concrete `normality` run with levels `[80, 95]` whose
interval registry holds exactly the `-lo-95, -lo-80, -hi-80, -hi-95`
block for the key `A/BottomUp`. -/
theorem C4_interval_column_blocks_witness :
    ∃ reg f,
      (reconcileMethod ppfOne orcConst (HRInit [buRec]) frHi ["s1"] none
        (some [⟨80, "80"⟩, ⟨95, "95"⟩]) "normality" (-1) 0 false).result = .ok f
      ∧ (reconcileMethod ppfOne orcConst (HRInit [buRec]) frHi ["s1"] none
          (some [⟨80, "80"⟩, ⟨95, "95"⟩]) "normality" (-1) 0 false).state.levelNames
          = some reg
      ∧ (∀ k names, (k, names) ∈ reg →
          names = loHiNames k (pySort [⟨80, "80"⟩, ⟨95, "95"⟩])
          ∧ names <:+: f.colNames)
      ∧ (∀ rp, rp ∈ [buRec].zip [buRec] →
          ∀ mo, mo ∈ (⟨frHi, ["s1"], none, ["A"]⟩ : PrepOut).modelNames →
          ∃ names, (mo ++ "/" ++ buildFnName rp.2.tyName rp.2.params, names) ∈ reg)
      ∧ (∀ key : String, loHiNames key [⟨80, "80"⟩, ⟨95, "95"⟩]
          = [key ++ "-lo-95", key ++ "-lo-80", key ++ "-hi-80", key ++ "-hi-95"]) :=
  C4_interval_column_blocks ppfOne orcConst [buRec] frHi ["s1"] none
    [⟨80, "80"⟩, ⟨95, "95"⟩] "normality" (-1) 0 false ⟨frHi, ["s1"], none, ["A"]⟩
    (by decide) (by decide)

/-! ### Claim C7 — sample columns -/

/-- C7 (counterexample): a positive requested sample count alone does not
produce sample columns.  A `normality` run with `num_samples = 3` but no
requested level list completes with only the mean column appended — no
`-sample-` column exists and the sample registry is empty — because the
sample block is nested inside the `level is not None` branch. -/
theorem C7_counterexample :
    (0 : ℤ) < 3
    ∧ (reconcileMethod ppfOne orcConst (HRInit [buRec]) frHi ["s1"] none none
        "normality" 3 0 false).result.map Frame.colNames
        = .ok ["ds", "A", "A-hi-80", "A/BottomUp"]
    ∧ (["ds", "A", "A-hi-80", "A/BottomUp"].all
        (fun n => !(containsSub "-sample-" n))) = true
    ∧ (reconcileMethod ppfOne orcConst (HRInit [buRec]) frHi ["s1"] none none
        "normality" 3 0 false).state.sampleNames = some [] := by
  exact ⟨by decide, by decide, by decide, by decide⟩

/-- C7 (amended): sample columns require both a positive sample count and
a requested level list.  (1) With a level list and `0 < num_samples`, a
completed run registers, for every `{model}/{algorithm}` pair, the block
`{key}-sample-{i}` for `i ∈ [0, num_samples)`, laid down contiguously in
the output frame.  (2) With a level list and a non-positive count the
sample registry stays empty.  (3) With no level list the registries stay
empty regardless of the count, and the only columns a completed run adds
to the validated frame are the `{model}/{algorithm}` mean columns. -/
theorem C7_sample_columns :
    (∀ (ppf : ℚ → ℚ) (oracle : Oracle) (recs : List Reconciler) (Yh : Frame)
      (sIdx : List String) (Yd : Option Frame) (l : List PyNum) (m : String)
      (ns : ℤ) (seed : ℕ) (sd : Bool) (prep : PrepOut),
      prepareFit (HRInit recs).insample Yh sIdx Yd (some l) m sd = .ok prep →
      0 < ns →
      (reconcileMethod ppf oracle (HRInit recs) Yh sIdx Yd (some l) m ns
        seed sd).result.isOk = true →
      ∃ reg f,
        (reconcileMethod ppf oracle (HRInit recs) Yh sIdx Yd (some l) m ns
          seed sd).result = .ok f
        ∧ (reconcileMethod ppf oracle (HRInit recs) Yh sIdx Yd (some l) m ns
            seed sd).state.sampleNames = some reg
        ∧ (∀ k names, (k, names) ∈ reg →
            names = sampleNamesOf k ns.toNat ∧ names <:+: f.colNames)
        ∧ (∀ rp, rp ∈ recs.zip recs → ∀ mo, mo ∈ prep.modelNames →
            ∃ names, (mo ++ "/" ++ buildFnName rp.2.tyName rp.2.params, names) ∈ reg)
        ∧ (∀ key : String, sampleNamesOf key 3
            = [key ++ "-sample-0", key ++ "-sample-1", key ++ "-sample-2"]))
    ∧ (∀ (ppf : ℚ → ℚ) (oracle : Oracle) (recs : List Reconciler) (Yh : Frame)
      (sIdx : List String) (Yd : Option Frame) (l : List PyNum) (m : String)
      (ns : ℤ) (seed : ℕ) (sd : Bool) (prep : PrepOut),
      prepareFit (HRInit recs).insample Yh sIdx Yd (some l) m sd = .ok prep →
      ns ≤ 0 →
      (reconcileMethod ppf oracle (HRInit recs) Yh sIdx Yd (some l) m ns
        seed sd).state.sampleNames = some [])
    ∧ (∀ (ppf : ℚ → ℚ) (oracle : Oracle) (recs : List Reconciler) (Yh : Frame)
      (sIdx : List String) (Yd : Option Frame) (m : String)
      (ns : ℤ) (seed : ℕ) (sd : Bool) (prep : PrepOut),
      prepareFit (HRInit recs).insample Yh sIdx Yd none m sd = .ok prep →
      (reconcileMethod ppf oracle (HRInit recs) Yh sIdx Yd none m ns
        seed sd).result.isOk = true →
      (reconcileMethod ppf oracle (HRInit recs) Yh sIdx Yd none m ns
        seed sd).state.sampleNames = some []
      ∧ (reconcileMethod ppf oracle (HRInit recs) Yh sIdx Yd none m ns
          seed sd).state.levelNames = some []
      ∧ ∃ f ext,
          (reconcileMethod ppf oracle (HRInit recs) Yh sIdx Yd none m ns
            seed sd).result = .ok f
          ∧ f.colNames = prep.Y_hat.colNames ++ ext
          ∧ ∀ c, c ∈ ext → ∃ rp, rp ∈ recs.zip recs ∧ ∃ mo, mo ∈ prep.modelNames
              ∧ c = mo ++ "/" ++ buildFnName rp.2.tyName rp.2.params) := by
  refine ⟨?_, ?_, ?_⟩
  · intro ppf oracle recs Yh sIdx Yd l m ns seed sd prep hprep hns hok
    have hm := prepareFit_ok_method hprep
    set pairs := ((HRInit recs).reconcilers.zip (HRInit recs).origReconcilers).flatMap
      (fun rp => prep.modelNames.map (fun mo => (rp, mo))) with hpairs
    set res := loopGo ppf oracle (HRInit recs).insample m ns seed prep.Y_hat
      prep.Y_df pairs ⟨prep.Y_hat, [], [], [], some l, 0⟩ with hresdef
    have heq := reconcileMethod_eq_of_prep ppf oracle (HRInit recs) Yh sIdx Yd
      (some l) m ns seed sd prep hprep res hresdef
    have hinv := loopGo_level_invariants ppf oracle (HRInit recs).insample m ns seed
      prep.Y_hat prep.Y_df l hm pairs ⟨prep.Y_hat, [], [], [], some l, 0⟩ res hresdef
      (Or.inl rfl) (fun k names hk => absurd hk (List.not_mem_nil _))
      (fun k names hk => absurd hk (List.not_mem_nil _))
    obtain ⟨-, -, -, -, hsN, -, hall, -, -, -⟩ := hinv
    have hok2 : (match res.2 with
        | some e => (Except.error e : Except String Frame)
        | none => Except.ok res.1.Yt).isOk = true := by
      rw [heq] at hok
      exact hok
    have hr2 : res.2 = none := by
      cases hx : res.2 with
      | none => rfl
      | some e =>
        rw [hx] at hok2
        exact Bool.noConfusion (show false = true from hok2)
    refine ⟨res.1.sampleNames, res.1.Yt, ?_, ?_, hsN, ?_, ?_⟩
    · rw [heq, hr2]
    · rw [heq]
    · intro rp hrp mo hmo
      have hqmem : ((rp, mo) : (Reconciler × Reconciler) × String) ∈ pairs := by
        rw [hpairs]
        exact List.mem_flatMap.mpr ⟨rp, hrp, List.mem_map.mpr ⟨mo, hmo, rfl⟩⟩
      exact (hall hr2 (rp, mo) hqmem).2 hns
    · intro key
      have hassoc : ∀ a b : String, key ++ a ++ b = key ++ (a ++ b) :=
        fun a b => String.append_assoc key a b
      show [key ++ "-sample-" ++ "0", key ++ "-sample-" ++ "1",
            key ++ "-sample-" ++ "2"] = _
      rw [hassoc, hassoc, hassoc]
      rfl
  · intro ppf oracle recs Yh sIdx Yd l m ns seed sd prep hprep hns
    have hm := prepareFit_ok_method hprep
    set pairs := ((HRInit recs).reconcilers.zip (HRInit recs).origReconcilers).flatMap
      (fun rp => prep.modelNames.map (fun mo => (rp, mo))) with hpairs
    set res := loopGo ppf oracle (HRInit recs).insample m ns seed prep.Y_hat
      prep.Y_df pairs ⟨prep.Y_hat, [], [], [], some l, 0⟩ with hresdef
    have heq := reconcileMethod_eq_of_prep ppf oracle (HRInit recs) Yh sIdx Yd
      (some l) m ns seed sd prep hprep res hresdef
    have hinv := loopGo_level_invariants ppf oracle (HRInit recs).insample m ns seed
      prep.Y_hat prep.Y_df l hm pairs ⟨prep.Y_hat, [], [], [], some l, 0⟩ res hresdef
      (Or.inl rfl) (fun k names hk => absurd hk (List.not_mem_nil _))
      (fun k names hk => absurd hk (List.not_mem_nil _))
    obtain ⟨-, -, -, -, -, -, -, hns0, -, -⟩ := hinv
    have h1 : (reconcileMethod ppf oracle (HRInit recs) Yh sIdx Yd (some l) m ns
        seed sd).state.sampleNames = some res.1.sampleNames := by rw [heq]
    rw [h1, hns0 hns]
  · intro ppf oracle recs Yh sIdx Yd m ns seed sd prep hprep hok
    set pairs := ((HRInit recs).reconcilers.zip (HRInit recs).origReconcilers).flatMap
      (fun rp => prep.modelNames.map (fun mo => (rp, mo))) with hpairs
    set res := loopGo ppf oracle (HRInit recs).insample m ns seed prep.Y_hat
      prep.Y_df pairs ⟨prep.Y_hat, [], [], [], none, 0⟩ with hresdef
    have heq := reconcileMethod_eq_of_prep ppf oracle (HRInit recs) Yh sIdx Yd
      none m ns seed sd prep hprep res hresdef
    have hinv := loopGo_none_invariants ppf oracle (HRInit recs).insample m ns seed
      prep.Y_hat prep.Y_df pairs ⟨prep.Y_hat, [], [], [], none, 0⟩ res hresdef rfl
    obtain ⟨-, hlN, hsN, -, ext, hcols, hext⟩ := hinv
    have hok2 : (match res.2 with
        | some e => (Except.error e : Except String Frame)
        | none => Except.ok res.1.Yt).isOk = true := by
      rw [heq] at hok
      exact hok
    have hr2 : res.2 = none := by
      cases hx : res.2 with
      | none => rfl
      | some e =>
        rw [hx] at hok2
        exact Bool.noConfusion (show false = true from hok2)
    refine ⟨?_, ?_, res.1.Yt, ext, ?_, hcols, ?_⟩
    · rw [heq, hsN]
    · rw [heq, hlN]
    · rw [heq, hr2]
    · intro c hc
      obtain ⟨q, hq1, hq2⟩ := hext c hc
      rw [hpairs] at hq1
      obtain ⟨rp, hrp, hq3⟩ := List.mem_flatMap.mp hq1
      obtain ⟨mo, hmo, hq4⟩ := List.mem_map.mp hq3
      refine ⟨rp, hrp, mo, hmo, ?_⟩
      rw [hq2, ← hq4]
      rfl

/-- C7 (witness): with a requested level list and `num_samples = 3`, the
sample registry of a concrete run holds the block
`A/BottomUp-sample-0 … -sample-2`. -/
theorem C7_sample_columns_witness :
    ∃ reg f,
      (reconcileMethod ppfOne orcConst (HRInit [buRec]) frHi ["s1"] none
        (some [⟨80, "80"⟩]) "normality" 3 0 false).result = .ok f
      ∧ (reconcileMethod ppfOne orcConst (HRInit [buRec]) frHi ["s1"] none
          (some [⟨80, "80"⟩]) "normality" 3 0 false).state.sampleNames = some reg
      ∧ (∀ k names, (k, names) ∈ reg →
          names = sampleNamesOf k (3 : ℤ).toNat ∧ names <:+: f.colNames)
      ∧ (∀ rp, rp ∈ [buRec].zip [buRec] →
          ∀ mo, mo ∈ (⟨frHi, ["s1"], none, ["A"]⟩ : PrepOut).modelNames →
          ∃ names, (mo ++ "/" ++ buildFnName rp.2.tyName rp.2.params, names) ∈ reg)
      ∧ (∀ key : String, sampleNamesOf key 3
          = [key ++ "-sample-0", key ++ "-sample-1", key ++ "-sample-2"]) :=
  C7_sample_columns.1 ppfOne orcConst [buRec] frHi ["s1"] none [⟨80, "80"⟩]
    "normality" 3 0 false ⟨frHi, ["s1"], none, ["A"]⟩
    (by decide) (by decide) (by decide)

/-! ### Claim C8 — cross-call instance state -/

/-- C8 (counterexample): the instance does retain cross-call state beyond
the configured reconcilers and the derived insample flag.  After a
completed call, `execution_times` (and the model-name and registry
attributes) remain assigned on the instance — the post-call state differs
from the freshly-initialized one. -/
theorem C8_counterexample :
    (HRInit [buRec]).executionTimes = none
    ∧ (reconcileMethod ppfOne orcConst (HRInit [buRec]) frHi ["s1"] none none
        "normality" (-1) 0 false).state.executionTimes = some [("A/BottomUp", 0)]
    ∧ (reconcileMethod ppfOne orcConst (HRInit [buRec]) frHi ["s1"] none none
        "normality" (-1) 0 false).state ≠ HRInit [buRec] := by
  exact ⟨rfl, by decide, by decide⟩

/-- C8 (amended): although the run-scoped attributes persist on the
instance after a call, they are recomputed from scratch by every
invocation and never read: two instances agreeing on the configured
reconcilers, the kept deep copy and the derived insample flag produce the
same returned frame (or error) and the same final `level` contents
whatever their leftover attributes, and — whenever validation passes, so
the run-scoped attributes are overwritten — identical post-call
states. -/
theorem C8_stale_state_never_read :
    ∀ (ppf : ℚ → ℚ) (oracle : Oracle) (st1 st2 : HRState) (Yh : Frame)
      (sIdx : List String) (Yd : Option Frame) (lvl : Option (List PyNum))
      (m : String) (ns : ℤ) (seed : ℕ) (sd : Bool),
    st1.reconcilers = st2.reconcilers →
    st1.origReconcilers = st2.origReconcilers →
    st1.insample = st2.insample →
    (reconcileMethod ppf oracle st1 Yh sIdx Yd lvl m ns seed sd).result
      = (reconcileMethod ppf oracle st2 Yh sIdx Yd lvl m ns seed sd).result
    ∧ (reconcileMethod ppf oracle st1 Yh sIdx Yd lvl m ns seed sd).levelFinal
      = (reconcileMethod ppf oracle st2 Yh sIdx Yd lvl m ns seed sd).levelFinal
    ∧ (∀ prep, prepareFit st1.insample Yh sIdx Yd lvl m sd = .ok prep →
        (reconcileMethod ppf oracle st1 Yh sIdx Yd lvl m ns seed sd).state
          = (reconcileMethod ppf oracle st2 Yh sIdx Yd lvl m ns seed sd).state) := by
  intro ppf oracle st1 st2 Yh sIdx Yd lvl m ns seed sd h1 h2 h3
  unfold reconcileMethod
  rw [h1, h2, h3]
  cases hp : prepareFit st2.insample Yh sIdx Yd lvl m sd with
  | error e =>
    refine ⟨rfl, rfl, fun prep hprep => ?_⟩
    exact Except.noConfusion hprep
  | ok prep => exact ⟨rfl, rfl, fun prep hprep => rfl⟩

/-- C8 (witness): `C8_stale_state_never_read` at a fresh instance versus
one carrying leftover run-scoped attributes: the observable results
coincide. -/
theorem C8_stale_state_never_read_witness :
    (reconcileMethod ppfOne orcConst (HRInit [buRec]) frHi ["s1"] none none
      "normality" (-1) 0 false).result
      = (reconcileMethod ppfOne orcConst
          ⟨[buRec], [buRec], false, some ["junk"], some [("junk", 9)], some [],
            some []⟩ frHi ["s1"] none none "normality" (-1) 0 false).result
    ∧ (reconcileMethod ppfOne orcConst (HRInit [buRec]) frHi ["s1"] none none
        "normality" (-1) 0 false).levelFinal
      = (reconcileMethod ppfOne orcConst
          ⟨[buRec], [buRec], false, some ["junk"], some [("junk", 9)], some [],
            some []⟩ frHi ["s1"] none none "normality" (-1) 0 false).levelFinal
    ∧ (∀ prep, prepareFit (HRInit [buRec]).insample frHi ["s1"] none none
          "normality" false = .ok prep →
        (reconcileMethod ppfOne orcConst (HRInit [buRec]) frHi ["s1"] none none
          "normality" (-1) 0 false).state
          = (reconcileMethod ppfOne orcConst
              ⟨[buRec], [buRec], false, some ["junk"], some [("junk", 9)], some [],
                some []⟩ frHi ["s1"] none none "normality" (-1) 0 false).state) :=
  C8_stale_state_never_read ppfOne orcConst (HRInit [buRec])
    ⟨[buRec], [buRec], false, some ["junk"], some [("junk", 9)], some [], some []⟩
    frHi ["s1"] none none "normality" (-1) 0 false (by decide) (by decide) (by decide)

/-! ### Claim C9 — the bootstrap orchestrator -/

/-- C9: a successful `bootstrap_reconcile` validates once (with no level
list), then produces exactly one frame per seed in `[0, num_seeds)`: the
frame of seed `j` comes from a full `reconcile` run invoked with seed `j`,
gets a constant `seed` column holding `j` appended, and is renamed
positionally to a recorded layout, so that every block carries the first
seed's column layout; the blocks are then concatenated row-wise into the
output.  The positional rename itself succeeds exactly on a column-count
match — the existing names and their order are never verified. -/
theorem C9_bootstrap_per_seed (ppf : ℚ → ℚ) (oracle : Oracle) (st : HRState)
    (Yh : Frame) (sIdx : List String) (Yd : Option Frame) (lvl : Option (List PyNum))
    (m : String) (ns : ℤ) (numSeeds : ℕ) (sd : Bool)
    (hok : (bootstrapReconcile ppf oracle st Yh sIdx Yd lvl m ns numSeeds sd).2.isOk
      = true) :
    (∃ out prep frames,
      (bootstrapReconcile ppf oracle st Yh sIdx Yd lvl m ns numSeeds sd).2 = .ok out
      ∧ prepareFit st.insample Yh sIdx Yd none m sd = .ok prep
      ∧ vconcat frames = .ok out
      ∧ frames.length = numSeeds
      ∧ ∀ j, j < numSeeds → ∃ stJ lvlJ fJ fc,
          (reconcileMethod ppf oracle stJ prep.Y_hat prep.sIndex prep.Y_df lvlJ m ns
            j false).result = .ok fJ
          ∧ frameRename fc (frameSetCol fJ "seed" ((List.range fJ.index.length).map
              (fun _ => some (j : ℚ)))) = .ok (frames.getD j ⟨[], []⟩)
          ∧ (frames.getD j ⟨[], []⟩).colNames = (frames.getD 0 ⟨[], []⟩).colNames)
    ∧ (∀ (names : List String) (f : Frame),
        (∃ g, frameRename names f = .ok g) ↔ names.length = f.cols.length) := by
  refine ⟨?_, frameRename_isOk_iff⟩
  cases hp : prepareFit st.insample Yh sIdx Yd none m sd with
  | error e =>
    have hbad : bootstrapReconcile ppf oracle st Yh sIdx Yd lvl m ns numSeeds sd
        = (st, .error e) := by
      unfold bootstrapReconcile
      rw [hp]
    rw [hbad] at hok
    exact Bool.noConfusion (show false = true from hok)
  | ok prep =>
    cases hbg : bootstrapGo ppf oracle prep.Y_hat prep.sIndex prep.Y_df m ns
        (List.range numSeeds) { st with modelNames := some prep.modelNames } lvl
        none [] with
    | mk st2 r =>
      cases r with
      | error e =>
        have hbad : bootstrapReconcile ppf oracle st Yh sIdx Yd lvl m ns numSeeds sd
            = (st2, .error e) := by
          unfold bootstrapReconcile
          rw [hp]
          dsimp only
          rw [hbg]
        rw [hbad] at hok
        exact Bool.noConfusion (show false = true from hok)
      | ok frames =>
        cases hvc : vconcat frames with
        | error e2 =>
          have hbad : bootstrapReconcile ppf oracle st Yh sIdx Yd lvl m ns numSeeds
              sd = (st2, .error e2) := by
            unfold bootstrapReconcile
            rw [hp]
            dsimp only
            rw [hbg]
            dsimp only
            rw [hvc]
          rw [hbad] at hok
          exact Bool.noConfusion (show false = true from hok)
        | ok out =>
          have hmain : bootstrapReconcile ppf oracle st Yh sIdx Yd lvl m ns numSeeds
              sd = (st2, .ok out) := by
            unfold bootstrapReconcile
            rw [hp]
            dsimp only
            rw [hbg]
            dsimp only
            rw [hvc]
          cases numSeeds with
          | zero =>
            have hnil : List.range 0 = ([] : List ℕ) := rfl
            rw [hnil, bootstrapGo] at hbg
            have hfr0 : frames = [] := (Except.ok.inj
              (show Except.ok ([] : List Frame) = Except.ok frames from
                congrArg Prod.snd hbg)).symm
            rw [hfr0] at hvc
            exact Except.noConfusion
              (show (Except.error "No objects to concatenate" : Except String Frame)
                = Except.ok out from hvc)
          | succ n =>
            have hrange : List.range (n + 1) = 0 :: List.range' 1 n := by
              rw [List.range_eq_range']
              rfl
            rw [hrange, bootstrapGo_cons] at hbg
            cases hr0 : (reconcileMethod ppf oracle
                { st with modelNames := some prep.modelNames } prep.Y_hat prep.sIndex
                prep.Y_df lvl m ns 0 false).result with
            | error e0 =>
              rw [hr0] at hbg
              exact Except.noConfusion
                (show (Except.error e0 : Except String (List Frame))
                  = Except.ok frames from congrArg Prod.snd hbg)
            | ok f0 =>
              rw [hr0] at hbg
              dsimp only at hbg
              rw [if_pos (show (0 : ℕ) = 0 from rfl)] at hbg
              cases hren0 : frameRename (frameSetCol f0 "seed"
                  ((List.range f0.index.length).map
                    (fun _ => some ((0 : ℕ) : ℚ)))).colNames
                  (frameSetCol f0 "seed" ((List.range f0.index.length).map
                    (fun _ => some ((0 : ℕ) : ℚ)))) with
              | error e1 =>
                rw [hren0] at hbg
                exact Except.noConfusion
                  (show (Except.error e1 : Except String (List Frame))
                    = Except.ok frames from congrArg Prod.snd hbg)
              | ok f2 =>
                rw [hren0] at hbg
                dsimp only at hbg
                obtain ⟨new, hfr, hlen, hprops⟩ := bootstrapGo_tail ppf oracle
                  prep.Y_hat prep.sIndex prep.Y_df m ns n 1
                  (reconcileMethod ppf oracle
                    { st with modelNames := some prep.modelNames } prep.Y_hat
                    prep.sIndex prep.Y_df lvl m ns 0 false).state
                  (reconcileMethod ppf oracle
                    { st with modelNames := some prep.modelNames } prep.Y_hat
                    prep.sIndex prep.Y_df lvl m ns 0 false).levelFinal
                  (frameSetCol f0 "seed" ((List.range f0.index.length).map
                    (fun _ => some ((0 : ℕ) : ℚ)))).colNames
                  ([] ++ [f2]) st2 frames hbg (by omega)
                have hfr2 : frames = f2 :: new := hfr
                refine ⟨out, prep, frames, by rw [hmain], rfl, hvc,
                  by rw [hfr2, List.length_cons, hlen], ?_⟩
                intro j hj
                cases j with
                | zero =>
                  refine ⟨{ st with modelNames := some prep.modelNames }, lvl, f0,
                    (frameSetCol f0 "seed" ((List.range f0.index.length).map
                      (fun _ => some ((0 : ℕ) : ℚ)))).colNames, hr0, ?_, ?_⟩
                  · rw [hfr2]
                    exact hren0
                  · rfl
                | succ j2 =>
                  have hj2 : j2 < n := Nat.lt_of_succ_lt_succ hj
                  obtain ⟨stJ, lvlJ, fJ, hres1, hres2, hres3⟩ := hprops j2 hj2
                  have hseed : (1 : ℕ) + j2 = j2 + 1 := by omega
                  rw [hseed] at hres1 hres2
                  refine ⟨stJ, lvlJ, fJ,
                    (frameSetCol f0 "seed" ((List.range f0.index.length).map
                      (fun _ => some ((0 : ℕ) : ℚ)))).colNames, hres1, ?_, ?_⟩
                  · rw [hfr2]
                    exact hres2
                  · rw [hfr2]
                    exact hres3.trans (frameRename_colNames hren0).symm

/-- C9 (witness): a concrete two-seed bootstrap run over one reconciler
and one model, with a requested level list, satisfies the per-seed
characterization. -/
theorem C9_bootstrap_per_seed_witness :
    (∃ out prep frames,
      (bootstrapReconcile ppfOne orcConst (HRInit [buRec]) frHi ["s1"] none
        (some [⟨80, "80"⟩]) "normality" (-1) 2 false).2 = .ok out
      ∧ prepareFit (HRInit [buRec]).insample frHi ["s1"] none none "normality" false
          = .ok prep
      ∧ vconcat frames = .ok out
      ∧ frames.length = 2
      ∧ ∀ j, j < 2 → ∃ stJ lvlJ fJ fc,
          (reconcileMethod ppfOne orcConst stJ prep.Y_hat prep.sIndex prep.Y_df lvlJ
            "normality" (-1) j false).result = .ok fJ
          ∧ frameRename fc (frameSetCol fJ "seed" ((List.range fJ.index.length).map
              (fun _ => some (j : ℚ)))) = .ok (frames.getD j ⟨[], []⟩)
          ∧ (frames.getD j ⟨[], []⟩).colNames = (frames.getD 0 ⟨[], []⟩).colNames)
    ∧ (∀ (names : List String) (f : Frame),
        (∃ g, frameRename names f = .ok g) ↔ names.length = f.cols.length) :=
  C9_bootstrap_per_seed ppfOne orcConst (HRInit [buRec]) frHi ["s1"] none
    (some [⟨80, "80"⟩]) "normality" (-1) 2 false (by decide)

end HF
